import Mathlib

/-!
RSA demonstration program (`Encry_Decry_algo.c++`).

A shallow embedding of the class `RSACrypto` and proofs of properties of its
arithmetic core.

Conventions of the embedding.

* A `long long` value is an `Int`.  Every `+`, `-`, `*` and `/` of the source
  passes its mathematical result through a reading `W : Int → Int` of the
  64-bit register.  `wrap64` is the two's-complement reading of the machine;
  `exact` is the reading "without 64-bit overflow".
* `%` and `/` of C++ truncate toward zero: `Int.tmod` and `Int.tdiv`.  A
  remainder whose divisor is not guarded against zero by the source has no
  result when the divisor is zero.  A remainder never leaves the 64-bit range,
  so it is not passed through `W`; the single overflowing case
  `INT64_MIN % -1` gets its mathematical value `0`.
* Every `while`/`for`/`do` loop and the recursion of `extendedGCD` is driven by
  a fuel counter: one unit per evaluation of the loop test (or per call).  A
  run that exhausts the fuel has no result (`none`).
* `char` is the signed 8-bit type; a string is a list of such characters.
* The random source of `generatePrime` is the list of the values it draws.
* Console output is not modelled.
-/

namespace RSACrypto

/-! ## Machine integers -/

/-- Two's-complement reading of a 64-bit signed result. -/
def wrap64 (x : Int) : Int :=
  (x + 9223372036854775808) % 18446744073709551616 - 9223372036854775808

/-- Reading of a result when arithmetic is taken without 64-bit overflow. -/
def exact (x : Int) : Int := x

/-- The signed 8-bit character type: codes from -128 to 127. -/
abbrev CChar := { c : Int // -128 ≤ c ∧ c ≤ 127 }

/-- The conversion `static_cast<char>(m)` of a `long long`. -/
def toCChar (m : Int) : CChar :=
  ⟨(m + 128) % 256 - 128, by omega⟩

/-- The conversion `static_cast<long long>(c)` of a `char`. -/
def ofCChar (c : CChar) : Int := c.val

/-- The private members `n`, `e`, `d` of the class. -/
structure Key where
  n : Int
  e : Int
  d : Int
deriving DecidableEq

/-! ## Number theory -/

/-- The `for` loop of `isPrime`, entered with the current `i`. -/
def isPrimeLoop (W : Int → Int) : Nat → Int → Int → Option Bool
  | 0, _, _ => none
  | fuel + 1, num, i =>
    if W (i * i) ≤ num then
      if i = 0 then none
      else if num.tmod i = 0 then some false
      else isPrimeLoop W fuel num (W (i + 2))
    else some true

/-- Source function `isPrime`. -/
def isPrime (W : Int → Int) (fuel : Nat) (num : Int) : Option Bool :=
  if num < 2 then some false
  else if num = 2 then some true
  else if num.tmod 2 = 0 then some false
  else isPrimeLoop W fuel num 3

/-- Source function `generatePrime`; `draws` are the successive values of
`dis(gen)`, and the result carries the draws not yet consumed.  The
distribution is over `[min, max]`: a value outside it is not a draw, and a run
that needs more draws than the list holds has no result. -/
def generatePrime (W : Int → Int) (fuel : Nat) (min max : Int) :
    List Int → Option (Int × List Int)
  | [] => none
  | c :: rest =>
    if c < min ∨ max < c then none
    else
      let candidate := if c.tmod 2 = 0 then W (c + 1) else c
      match isPrime W fuel candidate with
      | none => none
      | some true => some (candidate, rest)
      | some false => generatePrime W fuel min max rest

/-- Source function `gcd`: the iterative Euclidean loop. -/
def gcd : Nat → Int → Int → Option Int
  | 0, _, _ => none
  | fuel + 1, a, b =>
    if b ≠ 0 then gcd fuel b (a.tmod b)
    else some a

/-- Source function `extendedGCD`; the result is `(return value, x, y)`. -/
def extendedGCD (W : Int → Int) : Nat → Int → Int → Option (Int × Int × Int)
  | 0, _, _ => none
  | fuel + 1, a, b =>
    if a = 0 then some (b, 0, 1)
    else
      match extendedGCD W fuel (b.tmod a) a with
      | none => none
      | some (g, x1, y1) => some (g, W (y1 - W (W (b.tdiv a) * x1)), x1)

/-- Source function `modInverse`. -/
def modInverse (W : Int → Int) (fuel : Nat) (a m : Int) : Option Int :=
  match extendedGCD W fuel a m with
  | none => none
  | some (g, x, _) =>
    if g ≠ 1 then some (-1)
    else if m = 0 then none
    else some ((W (x.tmod m + m)).tmod m)

/-- The `while (exp > 0)` loop of `modPow`. -/
def modPowLoop (W : Int → Int) : Nat → Int → Int → Int → Int → Option Int
  | 0, _, _, _, _ => none
  | fuel + 1, result, base, exp, mod =>
    if exp > 0 then
      modPowLoop W fuel
        (if exp.tmod 2 = 1 then (W (result * base)).tmod mod else result)
        ((W (base * base)).tmod mod) (exp >>> (1 : Nat)) mod
    else some result

/-- Source function `modPow`. -/
def modPow (W : Int → Int) (fuel : Nat) (base exp mod : Int) : Option Int :=
  if mod = 0 then none
  else modPowLoop W fuel 1 (base.tmod mod) exp mod

/-- The products `result * base` and `base * base` that the loop of `modPow`
forms, in the order of the run, as mathematical integers before they are
stored in a 64-bit register. -/
def modPowLoopProducts (W : Int → Int) : Nat → Int → Int → Int → Int → List Int
  | 0, _, _, _, _ => []
  | fuel + 1, result, base, exp, mod =>
    if exp > 0 then
      (if exp.tmod 2 = 1 then [result * base] else []) ++ [base * base] ++
        modPowLoopProducts W fuel
          (if exp.tmod 2 = 1 then (W (result * base)).tmod mod else result)
          ((W (base * base)).tmod mod) (exp >>> (1 : Nat)) mod
    else []

/-- The intermediate products of a call of `modPow`. -/
def modPowProducts (W : Int → Int) (fuel : Nat) (base exp mod : Int) : List Int :=
  if mod = 0 then []
  else modPowLoopProducts W fuel 1 (base.tmod mod) exp mod

/-! ## Key generation -/

/-- The loop `while (gcd(e, phi) != 1) e += 2` of `generateKeys`; `fuel` drives
the calls of `gcd`, the counter drives the loop itself. -/
def findExponent (W : Int → Int) (fuel : Nat) : Nat → Int → Int → Option Int
  | 0, _, _ => none
  | k + 1, e, phi =>
    match gcd fuel e phi with
    | none => none
    | some g => if g ≠ 1 then findExponent W fuel k (W (e + 2)) phi else some e

/-- Steps 2 to 5 of `generateKeys`: the key derived from the primes `p`, `q`. -/
def generateKeysFrom (W : Int → Int) (fuel : Nat) (p q : Int) : Option Key :=
  let n := W (p * q)
  let phi := W (W (p - 1) * W (q - 1))
  match findExponent W fuel fuel 65537 phi with
  | none => none
  | some e =>
    match modInverse W fuel e phi with
    | none => none
    | some d => some ⟨n, e, d⟩

/-- The loop `while (p == q) q = generatePrime(100, 500)` of `generateKeys`. -/
def distinctPrime (W : Int → Int) (fuel : Nat) :
    Nat → Int → Int → List Int → Option (Int × List Int)
  | 0, _, _, _ => none
  | k + 1, p, q, draws =>
    if p = q then
      match generatePrime W fuel 100 500 draws with
      | none => none
      | some (q1, rest) => distinctPrime W fuel k p q1 rest
    else some (q, draws)

/-- Source function `generateKeys`, reading its random draws from `draws`. -/
def generateKeys (W : Int → Int) (fuel : Nat) (draws : List Int) : Option Key :=
  match generatePrime W fuel 100 500 draws with
  | none => none
  | some (p, rest) =>
    match generatePrime W fuel 100 500 rest with
    | none => none
    | some (q0, rest1) =>
      match distinctPrime W fuel fuel p q0 rest1 with
      | none => none
      | some (q, _) => generateKeysFrom W fuel p q

/-! ## Transform -/

/-- Source function `encryptChar`. -/
def encryptChar (W : Int → Int) (fuel : Nat) (key : Key) (c : CChar) : Option Int :=
  modPow W fuel (ofCChar c) key.e key.n

/-- Source function `decryptChar`. -/
def decryptChar (W : Int → Int) (fuel : Nat) (key : Key) (c : Int) : Option CChar :=
  match modPow W fuel c key.d key.n with
  | none => none
  | some m => some (toCChar m)

/-- The range-`for` of `encrypt`, with the vector built so far. -/
def encryptLoop (W : Int → Int) (fuel : Nat) (key : Key) :
    List CChar → List Int → Option (List Int)
  | [], encrypted => some encrypted
  | c :: rest, encrypted =>
    match encryptChar W fuel key c with
    | none => none
    | some u => encryptLoop W fuel key rest (encrypted ++ [u])

/-- Source function `encrypt`. -/
def encrypt (W : Int → Int) (fuel : Nat) (key : Key) (message : List CChar) :
    Option (List Int) :=
  encryptLoop W fuel key message []

/-- The range-`for` of `decrypt`, with the string built so far. -/
def decryptLoop (W : Int → Int) (fuel : Nat) (key : Key) :
    List Int → List CChar → Option (List CChar)
  | [], decrypted => some decrypted
  | c :: rest, decrypted =>
    match decryptChar W fuel key c with
    | none => none
    | some s => decryptLoop W fuel key rest (decrypted ++ [s])

/-- Source function `decrypt`. -/
def decrypt (W : Int → Int) (fuel : Nat) (key : Key) (encrypted : List Int) :
    Option (List CChar) :=
  decryptLoop W fuel key encrypted []

/-- Source function `setKeys`. -/
def setKeys (n_val e_val d_val : Int) : Key := ⟨n_val, e_val, d_val⟩

/-! ## Basic facts about the readings of a 64-bit result -/

theorem wrap64_of_inRange (x : Int) (hlo : -9223372036854775808 ≤ x)
    (hhi : x < 9223372036854775808) : wrap64 x = x := by
  unfold wrap64
  omega

theorem wrap64_inRange (x : Int) :
    -9223372036854775808 ≤ wrap64 x ∧ wrap64 x < 9223372036854775808 := by
  unfold wrap64
  omega

theorem exact_eq (x : Int) : exact x = x := rfl

/-! ## The Euclidean loop -/

theorem natGcd_step (a b : Nat) : Nat.gcd b (a % b) = Nat.gcd a b := by
  rw [Nat.gcd_comm b (a % b), ← Nat.gcd_rec, Nat.gcd_comm]

theorem gcd_loop_nat (fuel : Nat) :
    ∀ a b : Nat, b < fuel → gcd fuel (a : Int) (b : Int) = some ((Nat.gcd a b : Nat) : Int) := by
  induction fuel with
  | zero => intro a b h; omega
  | succ k ih =>
    intro a b hk
    unfold gcd
    by_cases hb0 : b = 0
    · subst hb0
      simp
    · have hb0i : (b : Int) ≠ 0 := by exact_mod_cast hb0
      have hmod : (a : Int).tmod (b : Int) = ((a % b : Nat) : Int) := by
        rw [Int.tmod_eq_emod (Int.ofNat_nonneg a) (Int.ofNat_nonneg b)]
        rfl
      have hlt : a % b < b := Nat.mod_lt a (Nat.pos_of_ne_zero hb0)
      rw [if_pos hb0i, hmod, ih b (a % b) (by omega), natGcd_step]

theorem gcd_loop_nonneg (fuel : Nat) (a b : Int) (ha : 0 ≤ a) (hb : 0 ≤ b)
    (hfuel : b.toNat < fuel) : gcd fuel a b = some (Int.gcd a b : Int) := by
  obtain ⟨a1, rfl⟩ := Int.eq_ofNat_of_zero_le ha
  obtain ⟨b1, rfl⟩ := Int.eq_ofNat_of_zero_le hb
  have h := gcd_loop_nat fuel a1 b1 (by simpa using hfuel)
  simpa [Int.gcd] using h

/-- C9: for `a ≥ 0` and `b ≥ 0` the iterative `gcd(a, b)` returns the greatest
common divisor of `a` and `b` (once the fuel exceeds `b + 1` loop tests), and
in particular `gcd(a, 0) = a` and `gcd(0, b) = b`. -/
theorem gcd_returns_greatest_common_divisor (a b : Int) (ha : 0 ≤ a) (hb : 0 ≤ b)
    (fuel : Nat) (hfuel : b.toNat + 1 < fuel) :
    gcd fuel a b = some (Int.gcd a b : Int) ∧
      gcd fuel a 0 = some a ∧ gcd fuel 0 b = some b := by
  refine ⟨gcd_loop_nonneg fuel a b ha hb (by omega), ?_, ?_⟩
  · have h := gcd_loop_nonneg fuel a 0 ha le_rfl (by simp; omega)
    simpa [Int.gcd, Int.natAbs_of_nonneg ha] using h
  · have h := gcd_loop_nonneg fuel 0 b le_rfl hb (by omega)
    simpa [Int.gcd, Int.natAbs_of_nonneg hb] using h

theorem gcd_returns_greatest_common_divisor_witness :
    (0 : Int) ≤ 12 ∧ (0 : Int) ≤ 18 ∧ gcd 20 12 18 = some 6 ∧
      gcd 20 12 0 = some 12 ∧ gcd 20 0 18 = some 18 :=
  ⟨by decide, by decide,
    gcd_returns_greatest_common_divisor 12 18 (by decide) (by decide) 20 (by decide)⟩

/-! ## The loops of `encrypt` and `decrypt` -/

theorem encryptLoop_spec (W : Int → Int) (fuel : Nat) (key : Key) (msg : List CChar) :
    ∀ acc out : List Int, encryptLoop W fuel key msg acc = some out ↔
      ∃ tl, out = acc ++ tl ∧
        List.Forall₂ (fun c u => encryptChar W fuel key c = some u) msg tl := by
  induction msg with
  | nil =>
    intro acc out
    simp [encryptLoop, eq_comm]
  | cons c rest ih =>
    intro acc out
    unfold encryptLoop
    cases hc : encryptChar W fuel key c with
    | none =>
      constructor
      · intro h
        cases h
      · rintro ⟨tl, _, hf⟩
        cases hf with
        | cons h _ => simp [hc] at h
    | some u =>
      simp only [ih]
      constructor
      · rintro ⟨tl, rfl, hf⟩
        exact ⟨u :: tl, by simp, List.Forall₂.cons hc hf⟩
      · rintro ⟨tl, rfl, hf⟩
        cases hf with
        | cons h hf1 =>
          rw [hc] at h
          cases h
          exact ⟨_, by simp, hf1⟩

/-! ## Square-and-multiply -/

theorem shiftRight_one_natCast (e : Nat) : ((e : Int) >>> (1 : Nat)) = ((e / 2 : Nat) : Int) := by
  rw [Int.shiftRight_eq_div_pow]
  simp

theorem tmod_two_natCast (e : Nat) : ((e : Int).tmod 2) = ((e % 2 : Nat) : Int) := by
  rw [Int.tmod_eq_emod (Int.ofNat_nonneg e) (by norm_num)]
  simp

theorem mul_le_sq_of_lt (m a b : Int) (ha0 : 0 ≤ a) (ha : a < m) (hb0 : 0 ≤ b) (hb : b < m) :
    0 ≤ a * b ∧ a * b ≤ (m - 1) * (m - 1) := by
  constructor
  · positivity
  · have h1 : a ≤ m - 1 := by omega
    have h2 : b ≤ m - 1 := by omega
    exact mul_le_mul h1 h2 hb0 (by omega)

/-- The loop of `modPow`, for any reading `W` that is exact on the products
`[0, (mod-1)²]`: with `e < 2^k` and more than `k` units of fuel it returns
`result * base^e mod mod`. -/
theorem modPowLoop_spec (W : Int → Int) (mod : Int) (hmod : 0 < mod)
    (hW : ∀ x, 0 ≤ x → x ≤ (mod - 1) * (mod - 1) → W x = x) (fuel : Nat) :
    ∀ (k e : Nat) (result base : Int), 0 ≤ result → result < mod → 0 ≤ base → base < mod →
      e < 2 ^ k → k < fuel →
      modPowLoop W fuel result base (e : Int) mod = some ((result * base ^ e) % mod) := by
  induction fuel with
  | zero => intro k e result base _ _ _ _ _ h; omega
  | succ f ih =>
    intro k e result base hr0 hr hb0 hb he hk
    unfold modPowLoop
    by_cases he0 : e = 0
    · subst he0
      simp [Int.emod_eq_of_lt hr0 hr]
    · have hpos : ((e : Int) > 0) := by
        have : 0 < e := Nat.pos_of_ne_zero he0
        exact_mod_cast this
      rw [if_pos hpos, shiftRight_one_natCast, tmod_two_natCast]
      have hbb := mul_le_sq_of_lt mod base base hb0 hb hb0 hb
      have hrb := mul_le_sq_of_lt mod result base hr0 hr hb0 hb
      rw [hW _ hbb.1 hbb.2, hW _ hrb.1 hrb.2]
      rw [Int.tmod_eq_emod hbb.1 hmod.le, Int.tmod_eq_emod hrb.1 hmod.le]
      have hk1 : 1 ≤ k := by
        rcases k with _ | k
        · simp at he; omega
        · omega
      have he2 : e / 2 < 2 ^ (k - 1) := by
        have : 2 ^ k = 2 * 2 ^ (k - 1) := by
          rw [← pow_succ']
          congr 1
          omega
        omega
      have hb2 : 0 ≤ (base * base) % mod ∧ (base * base) % mod < mod :=
        ⟨Int.emod_nonneg _ hmod.ne', Int.emod_lt_of_pos _ hmod⟩
      have hdecomp : e = 2 * (e / 2) + e % 2 := (Nat.div_add_mod e 2).symm
      rcases Nat.mod_two_eq_zero_or_one e with hpar | hpar
      · rw [hpar]
        simp only [Nat.cast_zero, zero_ne_one, if_false]
        rw [ih (k - 1) (e / 2) result _ hr0 hr hb2.1 hb2.2 he2 (by omega)]
        congr 1
        have hexp : base ^ e = (base * base) ^ (e / 2) := by
          conv_lhs => rw [hdecomp, hpar]
          rw [add_zero, pow_mul, pow_two]
        rw [hexp]
        apply Int.ModEq.mul_left
        apply Int.ModEq.pow
        exact Int.mod_modEq _ _
      · rw [hpar]
        simp only [Nat.cast_one, if_true]
        have hr2 : 0 ≤ (result * base) % mod ∧ (result * base) % mod < mod :=
          ⟨Int.emod_nonneg _ hmod.ne', Int.emod_lt_of_pos _ hmod⟩
        rw [ih (k - 1) (e / 2) _ _ hr2.1 hr2.2 hb2.1 hb2.2 he2 (by omega)]
        congr 1
        have hexp : result * base ^ e = (result * base) * (base * base) ^ (e / 2) := by
          conv_lhs => rw [hdecomp, hpar]
          rw [pow_succ, pow_mul, pow_two]
          ring
        rw [hexp]
        apply Int.ModEq.mul
        · exact Int.mod_modEq _ _
        · apply Int.ModEq.pow
          exact Int.mod_modEq _ _

/-- Source `modPow` under a reading exact on `[0, (mod-1)²]`. -/
theorem modPow_spec (W : Int → Int) (mod : Int) (hmod : 1 < mod)
    (hW : ∀ x, 0 ≤ x → x ≤ (mod - 1) * (mod - 1) → W x = x)
    (base : Int) (hbase : 0 ≤ base) (k e : Nat) (he : e < 2 ^ k) (fuel : Nat) (hk : k < fuel) :
    modPow W fuel base (e : Int) mod = some (base ^ e % mod) := by
  unfold modPow
  rw [if_neg (by omega), Int.tmod_eq_emod hbase (by omega)]
  rw [modPowLoop_spec W mod (by omega) hW fuel k e 1 (base % mod) (by norm_num) hmod
    (Int.emod_nonneg _ (by omega)) (Int.emod_lt_of_pos _ (by omega)) he hk]
  congr 1
  rw [one_mul]
  exact (Int.mod_modEq _ _).pow e

/-! ## More fuel never changes a result -/

theorem modPowLoop_mono (W : Int → Int) (mod : Int) (fuel : Nat) :
    ∀ (result base exp v : Int) (fuel1 : Nat), fuel ≤ fuel1 →
      modPowLoop W fuel result base exp mod = some v →
      modPowLoop W fuel1 result base exp mod = some v := by
  induction fuel with
  | zero => intro _ _ _ _ _ _ h; simp [modPowLoop] at h
  | succ f ih =>
    intro result base exp v fuel1 hle h
    obtain ⟨g, rfl⟩ : ∃ g, fuel1 = g + 1 := ⟨fuel1 - 1, by omega⟩
    unfold modPowLoop at h ⊢
    by_cases hexp : exp > 0
    · rw [if_pos hexp] at h ⊢
      exact ih _ _ _ _ g (by omega) h
    · rw [if_neg hexp] at h ⊢
      exact h

theorem modPow_mono (W : Int → Int) (fuel fuel1 : Nat) (hle : fuel ≤ fuel1)
    (base exp mod v : Int) (h : modPow W fuel base exp mod = some v) :
    modPow W fuel1 base exp mod = some v := by
  unfold modPow at h ⊢
  by_cases hm : mod = 0
  · simp [hm] at h
  · rw [if_neg hm] at h ⊢
    exact modPowLoop_mono W mod fuel _ _ _ _ fuel1 hle h

theorem extendedGCD_mono (W : Int → Int) (fuel : Nat) :
    ∀ (a b : Int) (r : Int × Int × Int) (fuel1 : Nat), fuel ≤ fuel1 →
      extendedGCD W fuel a b = some r → extendedGCD W fuel1 a b = some r := by
  induction fuel with
  | zero => intro _ _ _ _ _ h; simp [extendedGCD] at h
  | succ f ih =>
    intro a b r fuel1 hle h
    obtain ⟨g, rfl⟩ : ∃ g, fuel1 = g + 1 := ⟨fuel1 - 1, by omega⟩
    unfold extendedGCD at h ⊢
    by_cases ha : a = 0
    · rw [if_pos ha] at h ⊢
      exact h
    · rw [if_neg ha] at h ⊢
      cases hrec : extendedGCD W f (b.tmod a) a with
      | none => simp [hrec] at h
      | some r1 =>
        rw [ih _ _ r1 g (by omega) hrec]
        rw [hrec] at h
        exact h

theorem modInverse_mono (W : Int → Int) (fuel fuel1 : Nat) (hle : fuel ≤ fuel1)
    (a m v : Int) (h : modInverse W fuel a m = some v) :
    modInverse W fuel1 a m = some v := by
  unfold modInverse at h ⊢
  cases hrec : extendedGCD W fuel a m with
  | none => simp [hrec] at h
  | some r =>
    rw [extendedGCD_mono W fuel a m r fuel1 hle hrec]
    rw [hrec] at h
    exact h

theorem isPrimeLoop_mono (W : Int → Int) (num : Int) (fuel : Nat) :
    ∀ (i : Int) (v : Bool) (fuel1 : Nat), fuel ≤ fuel1 →
      isPrimeLoop W fuel num i = some v → isPrimeLoop W fuel1 num i = some v := by
  induction fuel with
  | zero => intro _ _ _ _ h; simp [isPrimeLoop] at h
  | succ f ih =>
    intro i v fuel1 hle h
    obtain ⟨g, rfl⟩ : ∃ g, fuel1 = g + 1 := ⟨fuel1 - 1, by omega⟩
    unfold isPrimeLoop at h ⊢
    by_cases h1 : W (i * i) ≤ num
    · rw [if_pos h1] at h ⊢
      by_cases h2 : i = 0
      · rw [if_pos h2] at h
        cases h
      · rw [if_neg h2] at h ⊢
        by_cases h3 : num.tmod i = 0
        · rw [if_pos h3] at h ⊢
          exact h
        · rw [if_neg h3] at h ⊢
          exact ih _ _ g (by omega) h
    · rw [if_neg h1] at h ⊢
      exact h

theorem isPrime_mono (W : Int → Int) (fuel fuel1 : Nat) (hle : fuel ≤ fuel1)
    (num : Int) (v : Bool) (h : isPrime W fuel num = some v) :
    isPrime W fuel1 num = some v := by
  unfold isPrime at h ⊢
  split_ifs at h ⊢ <;> first | exact h | exact isPrimeLoop_mono W num fuel _ _ fuel1 hle h

theorem gcd_mono (fuel : Nat) :
    ∀ (a b v : Int) (fuel1 : Nat), fuel ≤ fuel1 →
      gcd fuel a b = some v → gcd fuel1 a b = some v := by
  induction fuel with
  | zero => intro _ _ _ _ _ h; simp [gcd] at h
  | succ f ih =>
    intro a b v fuel1 hle h
    obtain ⟨g, rfl⟩ : ∃ g, fuel1 = g + 1 := ⟨fuel1 - 1, by omega⟩
    unfold gcd at h ⊢
    by_cases hb : b ≠ 0
    · rw [if_pos hb] at h ⊢
      exact ih _ _ _ g (by omega) h
    · rw [if_neg hb] at h ⊢
      exact h

/-! ## C6: `modPow` -/

theorem wrap64_exact_on_products (mod : Int) (hm : 1 ≤ mod) (hfit : mod ≤ 3037000500) :
    ∀ x, 0 ≤ x → x ≤ (mod - 1) * (mod - 1) → wrap64 x = x := by
  intro x h0 hx
  apply wrap64_of_inRange x (by omega)
  have h1 : (mod - 1) * (mod - 1) ≤ 3037000499 * 3037000499 :=
    mul_le_mul (by omega) (by omega) (by omega) (by norm_num)
  omega

/-- C6 as stated fails on the 64-bit machine: with `mod = 3037000501` the
square `3037000500 * 3037000500` exceeds `2^63 - 1`, and
`modPow(3037000500, 2, 3037000501)` returns `-2746052118` instead of
`3037000500^2 mod 3037000501 = 1`. -/
theorem modPow_overflow_counterexample :
    (0 : Int) ≤ 3037000500 ∧ (0 : Int) ≤ 2 ∧ (1 : Int) < 3037000501 ∧
      modPow wrap64 3 3037000500 2 3037000501 = some (-2746052118) ∧
      ∀ fuel, modPow wrap64 fuel 3037000500 2 3037000501
        ≠ some ((3037000500 : Int) ^ 2 % 3037000501) := by
  refine ⟨by decide, by decide, by decide, by decide, ?_⟩
  intro fuel
  by_cases hf : 3 ≤ fuel
  · rw [modPow_mono wrap64 3 fuel hf _ _ _ (-2746052118) (by decide)]
    decide
  · have h3 : fuel < 3 := by omega
    interval_cases fuel <;> decide

/-- C6 (amended): on the 64-bit machine, for `base ≥ 0`, `0 ≤ exp < 2^63` and
`1 < mod ≤ 3037000500` (so that `(mod-1)²` fits a signed 64-bit integer),
`modPow(base, exp, mod)` returns `base^exp mod mod`, a value in `[0, mod)`;
and `modPow(b, 0, m)` returns `1` for every `b` and every `m > 1`. -/
theorem modPow_correct_when_square_fits (base exp mod : Int) (hbase : 0 ≤ base)
    (hexp : 0 ≤ exp) (hexp64 : exp < 9223372036854775808) (hmod : 1 < mod)
    (hfit : mod ≤ 3037000500) (fuel : Nat) (hfuel : 64 ≤ fuel) :
    modPow wrap64 fuel base exp mod = some (base ^ exp.toNat % mod) ∧
      0 ≤ base ^ exp.toNat % mod ∧ base ^ exp.toNat % mod < mod ∧
      ∀ b m : Int, 1 < m → modPow wrap64 fuel b 0 m = some 1 := by
  refine ⟨?_, Int.emod_nonneg _ (by omega), Int.emod_lt_of_pos _ (by omega), ?_⟩
  · obtain ⟨e, rfl⟩ := Int.eq_ofNat_of_zero_le hexp
    have he : e < 2 ^ 63 := by
      have : (e : Int) < ((2 ^ 63 : Nat) : Int) := by
        simpa using hexp64
      exact_mod_cast this
    simpa using modPow_spec wrap64 mod hmod (wrap64_exact_on_products mod (by omega) hfit) base hbase
      63 e he fuel (by omega)
  · intro b m hm
    obtain ⟨f, rfl⟩ : ∃ f, fuel = f + 1 := ⟨fuel - 1, by omega⟩
    have hm0 : m ≠ 0 := by omega
    simp [modPow, modPowLoop, hm0]

theorem modPow_correct_when_square_fits_witness :
    (0 : Int) ≤ 72 ∧ (0 : Int) ≤ 65537 ∧ (65537 : Int) < 9223372036854775808 ∧
      (1 : Int) < 11413 ∧ (11413 : Int) ≤ 3037000500 ∧ 64 ≤ 64 ∧
      (modPow wrap64 64 72 65537 11413 = some (72 ^ (65537 : Int).toNat % 11413) ∧
        0 ≤ (72 : Int) ^ (65537 : Int).toNat % 11413 ∧
        (72 : Int) ^ (65537 : Int).toNat % 11413 < 11413 ∧
        ∀ b m : Int, 1 < m → modPow wrap64 64 b 0 m = some 1) :=
  ⟨by decide, by decide, by decide, by decide, by decide, by decide,
    modPow_correct_when_square_fits 72 65537 11413 (by decide) (by decide) (by decide)
      (by decide) (by decide) 64 (by decide)⟩

/-! ## The extended Euclidean recursion -/

/-- The recursion of `extendedGCD` on non-negative 64-bit arguments, for any
reading `W` exact on the signed 64-bit range: it returns `gcd(a, b)` with
Bézout coefficients, and no intermediate value leaves the range because
`|x| ≤ max 1 b` and `|y| ≤ max 1 a`. -/
theorem extendedGCD_nat (W : Int → Int)
    (hW : ∀ x, -9223372036854775808 ≤ x → x < 9223372036854775808 → W x = x) (fuel : Nat) :
    ∀ a b : Nat, (a : Int) < 9223372036854775808 → (b : Int) < 9223372036854775808 →
      a < fuel →
      ∃ x y : Int,
        extendedGCD W fuel (a : Int) (b : Int) = some (((Nat.gcd a b : Nat) : Int), x, y) ∧
        (a : Int) * x + (b : Int) * y = (Nat.gcd a b : Nat) ∧
        (-(max 1 (b : Int)) ≤ x ∧ x ≤ max 1 (b : Int)) ∧
        (-(max 1 (a : Int)) ≤ y ∧ y ≤ max 1 (a : Int)) ∧
        (a = 0 → x = 0 ∧ y = 1) := by
  induction fuel with
  | zero => intro a b _ _ h; omega
  | succ f ih =>
    intro a b ha63 hb hf
    unfold extendedGCD
    by_cases ha0 : a = 0
    · subst ha0
      refine ⟨0, 1, by simp, by simp, ?_, ?_, fun _ => ⟨rfl, rfl⟩⟩
      · have : (1 : Int) ≤ max 1 (b : Int) := le_max_left _ _
        omega
      · simp
    · have hapos : 0 < a := Nat.pos_of_ne_zero ha0
      have ha0i : (a : Int) ≠ 0 := by exact_mod_cast ha0
      have haposi : (0 : Int) < (a : Int) := by exact_mod_cast hapos
      have hmod : (b : Int).tmod (a : Int) = ((b % a : Nat) : Int) := by
        rw [Int.tmod_eq_emod (Int.ofNat_nonneg b) (Int.ofNat_nonneg a)]
        rfl
      have hdiv : (b : Int).tdiv (a : Int) = ((b / a : Nat) : Int) := by
        rw [Int.tdiv_eq_ediv (Int.ofNat_nonneg b) (Int.ofNat_nonneg a)]
        rfl
      have hlt : b % a < a := Nat.mod_lt b hapos
      have hdm : a * (b / a) + b % a = b := Nat.div_add_mod b a
      have hdmi : (a : Int) * ((b / a : Nat) : Int) + ((b % a : Nat) : Int) = (b : Int) := by
        exact_mod_cast hdm
      have hqb : ((b / a : Nat) : Int) ≤ (b : Int) := by
        exact_mod_cast Nat.div_le_self b a
      have hq0 : (0 : Int) ≤ ((b / a : Nat) : Int) := Int.ofNat_nonneg _
      have hr63 : ((b % a : Nat) : Int) < 9223372036854775808 := by
        have : ((b % a : Nat) : Int) < (a : Int) := by exact_mod_cast hlt
        omega
      obtain ⟨x1, y1, hrec, hbez, hx1, hy1, hzero⟩ := ih (b % a) a hr63 ha63 (by omega)
      rw [if_neg ha0i, hmod, hrec, hdiv]
      dsimp only
      have hmaxa : max 1 (a : Int) = (a : Int) := max_eq_right (by omega)
      rw [hmaxa] at hx1
      have hqx_hi : ((b / a : Nat) : Int) * x1 ≤ ((b / a : Nat) : Int) * (a : Int) :=
        mul_le_mul_of_nonneg_left hx1.2 hq0
      have hqx_lo : -(((b / a : Nat) : Int) * (a : Int)) ≤ ((b / a : Nat) : Int) * x1 := by
        have := mul_le_mul_of_nonneg_left hx1.1 hq0
        linarith
      have hqa : ((b / a : Nat) : Int) * (a : Int) = (b : Int) - ((b % a : Nat) : Int) := by
        linarith
      have hr0 : (0 : Int) ≤ ((b % a : Nat) : Int) := Int.ofNat_nonneg _
      have hW1 : W ((b / a : Nat) : Int) = ((b / a : Nat) : Int) := hW _ (by omega) (by omega)
      have hW2 : W (((b / a : Nat) : Int) * x1) = ((b / a : Nat) : Int) * x1 :=
        hW _ (by omega) (by omega)
      have hgcd : Nat.gcd (b % a) a = Nat.gcd a b := (Nat.gcd_rec a b).symm
      have hb1 : (b : Int) ≤ max 1 (b : Int) := le_max_right _ _
      have h11 : (1 : Int) ≤ max 1 (b : Int) := le_max_left _ _
      have hxbound : -(max 1 (b : Int)) ≤ y1 - ((b / a : Nat) : Int) * x1 ∧
          y1 - ((b / a : Nat) : Int) * x1 ≤ max 1 (b : Int) := by
        by_cases hr : b % a = 0
        · obtain ⟨hx10, hy11⟩ := hzero hr
          subst hx10 hy11
          simp only [mul_zero, sub_zero]
          omega
        · have hr1 : (1 : Int) ≤ ((b % a : Nat) : Int) := by
            have : 1 ≤ b % a := Nat.one_le_iff_ne_zero.mpr hr
            exact_mod_cast this
          have hmaxr : max 1 ((b % a : Nat) : Int) = ((b % a : Nat) : Int) := max_eq_right hr1
          rw [hmaxr] at hy1
          omega
      have hW3 : W (y1 - ((b / a : Nat) : Int) * x1) = y1 - ((b / a : Nat) : Int) * x1 :=
        hW _ (by omega) (by omega)
      rw [hW1, hW2, hW3]
      refine ⟨_, _, by rw [hgcd], ?_, hxbound, ?_, fun h => absurd h ha0⟩
      · rw [← hgcd, ← hbez]
        have : (b : Int) = (a : Int) * ((b / a : Nat) : Int) + ((b % a : Nat) : Int) := hdmi.symm
        conv_lhs => rw [this]
        ring
      · rw [hmaxa]
        exact hx1

/-! ## Truncated remainder -/

theorem neg_tmod_eq (x m : Int) : (-x).tmod m = -(x.tmod m) := by
  rw [Int.tmod_def, Int.tmod_def, Int.neg_tdiv]
  ring

theorem neg_lt_tmod (x m : Int) (hm : 0 < m) : -m < x.tmod m := by
  rcases le_or_lt 0 x with hx | hx
  · have := Int.tmod_nonneg m hx
    omega
  · have h1 := neg_tmod_eq (-x) m
    rw [neg_neg] at h1
    have h2 := Int.tmod_lt_of_pos (-x) hm
    omega

/-- Source `modInverse` on `0 ≤ a < 2^63` and `1 ≤ m ≤ 2^62`, for any reading
exact on the signed 64-bit range: the sentinel `-1` when `gcd(a, m) ≠ 1`, and
otherwise the residue `x mod m` of the Bézout coefficient, which lies in
`[0, m)` and satisfies `a * x ≡ 1 (mod m)`. -/
theorem modInverse_spec (W : Int → Int)
    (hW : ∀ x, -9223372036854775808 ≤ x → x < 9223372036854775808 → W x = x)
    (a m : Int) (ha : 0 ≤ a) (ha64 : a < 9223372036854775808) (hm : 1 ≤ m)
    (hm62 : m ≤ 4611686018427387904) (fuel : Nat) (hfuel : a.toNat < fuel) :
    (Int.gcd a m ≠ 1 → modInverse W fuel a m = some (-1)) ∧
      (Int.gcd a m = 1 → ∃ r, modInverse W fuel a m = some r ∧ 0 ≤ r ∧ r < m ∧
        (a * r) % m = 1 % m) := by
  obtain ⟨a1, rfl⟩ := Int.eq_ofNat_of_zero_le ha
  obtain ⟨m1, rfl⟩ := Int.eq_ofNat_of_zero_le (by omega : (0 : Int) ≤ m)
  obtain ⟨x, y, hrec, hbez, hx, _, _⟩ :=
    extendedGCD_nat W hW fuel a1 m1 ha64 (by omega) (by simpa using hfuel)
  have hg : Int.gcd (a1 : Int) (m1 : Int) = Nat.gcd a1 m1 := rfl
  unfold modInverse
  rw [hrec]
  dsimp only
  constructor
  · intro hne
    rw [hg] at hne
    have : ((Nat.gcd a1 m1 : Nat) : Int) ≠ 1 := by exact_mod_cast hne
    rw [if_pos this]
  · intro heq
    rw [hg] at heq
    rw [heq] at hbez
    have hm0 : (m1 : Int) ≠ 0 := by omega
    have hmax : max 1 (m1 : Int) = (m1 : Int) := max_eq_right hm
    rw [hmax] at hx
    have htm : x.tmod (m1 : Int) = x - (m1 : Int) * x.tdiv (m1 : Int) := by
      have := Int.tmod_add_tdiv x (m1 : Int)
      omega
    have habs : -(m1 : Int) < x.tmod (m1 : Int) ∧ x.tmod (m1 : Int) < (m1 : Int) := by
      constructor
      · exact neg_lt_tmod x (m1 : Int) (by omega)
      · exact Int.tmod_lt_of_pos x (by omega)
    have hWs : W (x.tmod (m1 : Int) + (m1 : Int)) = x.tmod (m1 : Int) + (m1 : Int) :=
      hW _ (by omega) (by omega)
    have hres : (x.tmod (m1 : Int) + (m1 : Int)).tmod (m1 : Int) = x % (m1 : Int) := by
      rw [Int.tmod_eq_emod (by omega) (by omega), htm]
      have : x - (m1 : Int) * x.tdiv (m1 : Int) + (m1 : Int)
          = x + (m1 : Int) * (1 - x.tdiv (m1 : Int)) := by ring
      rw [this, Int.add_mul_emod_self_left]
    refine ⟨x % (m1 : Int), ?_, Int.emod_nonneg _ hm0, Int.emod_lt_of_pos _ (by omega), ?_⟩
    · rw [heq]
      simp only [Nat.cast_one, ne_eq, not_true_eq_false, if_false, if_neg hm0]
      rw [hWs, hres]
    · have h1 : ((a1 : Int) * (x % (m1 : Int))) % (m1 : Int) = ((a1 : Int) * x) % (m1 : Int) :=
        ((Int.mod_modEq x (m1 : Int)).mul_left (a1 : Int))
      rw [h1]
      have h2 : (a1 : Int) * x = 1 + (m1 : Int) * (-y) := by
        have : (a1 : Int) * x + (m1 : Int) * y = 1 := by exact_mod_cast hbez
        linarith
      rw [h2, Int.add_mul_emod_self_left]

/-! ## C8: `extendedGCD` -/

/-- C8: for `a ≥ 0` and `b ≥ 0` (64-bit values), `extendedGCD(a, b)` on the
machine returns `g` and sets `x`, `y` with `a*x + b*y = g` and `g = gcd(a, b)`,
once the fuel exceeds `a` calls. -/
theorem extendedGCD_returns_bezout (a b : Int) (ha : 0 ≤ a) (ha64 : a < 9223372036854775808)
    (hb : 0 ≤ b) (hb64 : b < 9223372036854775808) (fuel : Nat) (hfuel : a.toNat < fuel) :
    ∃ g x y : Int, extendedGCD wrap64 fuel a b = some (g, x, y) ∧
      a * x + b * y = g ∧ g = (Int.gcd a b : Int) := by
  obtain ⟨a1, rfl⟩ := Int.eq_ofNat_of_zero_le ha
  obtain ⟨b1, rfl⟩ := Int.eq_ofNat_of_zero_le hb
  obtain ⟨x, y, hrec, hbez, _, _, _⟩ :=
    extendedGCD_nat wrap64 wrap64_of_inRange fuel a1 b1 ha64 hb64 (by simpa using hfuel)
  exact ⟨_, x, y, hrec, hbez, rfl⟩

theorem extendedGCD_returns_bezout_witness :
    (0 : Int) ≤ 240 ∧ (240 : Int) < 9223372036854775808 ∧ (0 : Int) ≤ 46 ∧
      (46 : Int) < 9223372036854775808 ∧ (240 : Int).toNat < 241 ∧
      ∃ g x y : Int, extendedGCD wrap64 241 240 46 = some (g, x, y) ∧
        240 * x + 46 * y = g ∧ g = (Int.gcd 240 46 : Int) :=
  ⟨by decide, by decide, by decide, by decide, by decide,
    extendedGCD_returns_bezout 240 46 (by decide) (by decide) (by decide) (by decide) 241
      (by decide)⟩

/-! ## C4 and C5: `modInverse` -/

/-- C4 as stated fails on the 64-bit machine: `gcd(5, 2^63 - 1) = 1`, the
Bézout coefficient is `x = 3689348814741910323 > 0`, the sum `x % m + m`
exceeds `2^63 - 1`, and `modInverse(5, 2^63 - 1)` returns the negative value
`-5534023222112865486`, which is outside `[0, m)`. -/
theorem modInverse_overflow_counterexample :
    (1 : Int) ≤ 5 ∧ (2 : Int) ≤ 9223372036854775807 ∧
      Int.gcd 5 9223372036854775807 = 1 ∧
      extendedGCD wrap64 4 5 9223372036854775807
        = some (1, 3689348814741910323, -2) ∧
      ∀ fuel x, modInverse wrap64 fuel 5 9223372036854775807 = some x → ¬ (0 ≤ x) := by
  refine ⟨by decide, by decide, by decide, by decide, ?_⟩
  intro fuel x h
  by_cases hf : 4 ≤ fuel
  · rw [modInverse_mono wrap64 4 fuel hf _ _ (-5534023222112865486) (by decide)] at h
    cases h
    decide
  · have h4 : fuel < 4 := by omega
    have hn : modInverse wrap64 fuel 5 9223372036854775807 = none := by
      interval_cases fuel <;> decide
    rw [hn] at h
    cases h

/-- C4 (amended): on the 64-bit machine, for `1 ≤ a < 2^63` and
`2 ≤ m ≤ 2^62` (so that `x % m + m` fits a signed 64-bit integer) with
`gcd(a, m) = 1`, `modInverse(a, m)` returns `x` with `0 ≤ x < m` and
`(a*x) mod m = 1`. -/
theorem modInverse_correct_when_sum_fits (a m : Int) (ha : 1 ≤ a)
    (ha64 : a < 9223372036854775808) (hm : 2 ≤ m) (hm62 : m ≤ 4611686018427387904)
    (hcop : Int.gcd a m = 1) (fuel : Nat) (hfuel : a.toNat < fuel) :
    ∃ x, modInverse wrap64 fuel a m = some x ∧ 0 ≤ x ∧ x < m ∧ (a * x) % m = 1 := by
  obtain ⟨r, hr, h0, hlt, hmul⟩ :=
    (modInverse_spec wrap64 wrap64_of_inRange a m (by omega) ha64 (by omega) hm62 fuel hfuel).2
      hcop
  refine ⟨r, hr, h0, hlt, ?_⟩
  rw [hmul]
  exact Int.emod_eq_of_lt (by norm_num) (by omega)

theorem modInverse_correct_when_sum_fits_witness :
    (1 : Int) ≤ 65537 ∧ (65537 : Int) < 9223372036854775808 ∧ (2 : Int) ≤ 11200 ∧
      (11200 : Int) ≤ 4611686018427387904 ∧ Int.gcd 65537 11200 = 1 ∧
      (65537 : Int).toNat < 65538 ∧
      ∃ x, modInverse wrap64 65538 65537 11200 = some x ∧ 0 ≤ x ∧ x < 11200 ∧
        (65537 * x) % 11200 = 1 :=
  ⟨by decide, by decide, by decide, by decide, by decide, by decide,
    modInverse_correct_when_sum_fits 65537 11200 (by decide) (by decide) (by decide)
      (by decide) (by decide) 65538 (by decide)⟩

/-- C5 as stated fails on the 64-bit machine: `gcd(1, 2^63 - 1) = 1`, yet
`1 % m + m = 2^63` wraps to `-2^63`, whose remainder by `m = 2^63 - 1` is `-1`:
`modInverse(1, 2^63 - 1)` returns the failure sentinel. -/
theorem modInverse_sentinel_counterexample :
    (0 : Int) ≤ 1 ∧ (1 : Int) ≤ 9223372036854775807 ∧
      Int.gcd 1 9223372036854775807 = 1 ∧
      ∀ fuel, 2 ≤ fuel → modInverse wrap64 fuel 1 9223372036854775807 = some (-1) := by
  refine ⟨by decide, by decide, by decide, ?_⟩
  intro fuel hf
  exact modInverse_mono wrap64 2 fuel hf _ _ (-1) (by decide)

/-- C5 (amended): on the 64-bit machine, for `0 ≤ a < 2^63` and
`1 ≤ m ≤ 2^62`, `modInverse(a, m)` returns the sentinel `-1` if and only if
`gcd(a, m) ≠ 1`; in particular `modInverse(4, 8)` returns `-1`. -/
theorem modInverse_sentinel_iff_not_coprime (a m : Int) (ha : 0 ≤ a)
    (ha64 : a < 9223372036854775808) (hm : 1 ≤ m) (hm62 : m ≤ 4611686018427387904)
    (fuel : Nat) (hfuel : a.toNat < fuel) :
    (∃ r, modInverse wrap64 fuel a m = some r ∧ (r = -1 ↔ Int.gcd a m ≠ 1)) ∧
      ∀ f, 2 ≤ f → modInverse wrap64 f 4 8 = some (-1) := by
  have hspec := modInverse_spec wrap64 wrap64_of_inRange a m ha ha64 hm hm62 fuel hfuel
  constructor
  · by_cases hg : Int.gcd a m = 1
    · obtain ⟨r, hr, h0, _, _⟩ := hspec.2 hg
      refine ⟨r, hr, ?_⟩
      constructor
      · intro h; omega
      · intro h; exact absurd hg h
    · exact ⟨-1, hspec.1 hg, fun _ => hg, fun _ => rfl⟩
  · intro f hf
    exact modInverse_mono wrap64 2 f hf _ _ (-1) (by decide)

theorem modInverse_sentinel_iff_not_coprime_witness :
    (0 : Int) ≤ 6 ∧ (6 : Int) < 9223372036854775808 ∧ (1 : Int) ≤ 9 ∧
      (9 : Int) ≤ 4611686018427387904 ∧ (6 : Int).toNat < 7 ∧
      ((∃ r, modInverse wrap64 7 6 9 = some r ∧ (r = -1 ↔ Int.gcd 6 9 ≠ 1)) ∧
        ∀ f, 2 ≤ f → modInverse wrap64 f 4 8 = some (-1)) :=
  ⟨by decide, by decide, by decide, by decide, by decide,
    modInverse_sentinel_iff_not_coprime 6 9 (by decide) (by decide) (by decide) (by decide) 7
      (by decide)⟩

/-! ## C2 and C3: the key derived by `generateKeys` -/

theorem prime_65537 : Nat.Prime 65537 := by norm_num

theorem prime_toNat_101 : Nat.Prime (101 : Int).toNat := by
  show Nat.Prime 101
  norm_num

theorem prime_toNat_113 : Nat.Prime (113 : Int).toNat := by
  show Nat.Prime 113
  norm_num

theorem coprime_65537_totient (a b : Nat) (ha0 : 0 < a) (ha : a < 65537) (hb0 : 0 < b)
    (hb : b < 65537) : Nat.gcd 65537 (a * b) = 1 := by
  have hcop : Nat.Coprime 65537 (a * b) := by
    rw [Nat.Prime.coprime_iff_not_dvd prime_65537]
    intro hdvd
    rcases (Nat.Prime.dvd_mul prime_65537).mp hdvd with h | h
    · have := Nat.le_of_dvd ha0 h
      omega
    · have := Nat.le_of_dvd hb0 h
      omega
  exact hcop

/-- The key that steps 2 to 5 of `generateKeys` derive from `p`, `q` in
`[100, 500]`, on the 64-bit machine: `n = p*q`, the exponent loop exits at its
first test with `e = 65537`, and `d` is the inverse of `e` modulo
`(p-1)*(q-1)` taken in `[0, (p-1)*(q-1))`. -/
theorem generateKeysFrom_spec (p q : Int) (hp_lo : 100 ≤ p) (hp_hi : p ≤ 500)
    (hq_lo : 100 ≤ q) (hq_hi : q ≤ 500) (fuel : Nat) (hfuel : 249001 < fuel) :
    ∃ d : Int, generateKeysFrom wrap64 fuel p q = some ⟨p * q, 65537, d⟩ ∧
      Int.gcd 65537 ((p - 1) * (q - 1)) = 1 ∧
      0 ≤ d ∧ d < (p - 1) * (q - 1) ∧ (65537 * d) % ((p - 1) * (q - 1)) = 1 := by
  obtain ⟨a, ha⟩ : ∃ a : Nat, p - 1 = (a : Int) := ⟨(p - 1).toNat, by omega⟩
  obtain ⟨b, hb⟩ : ∃ b : Nat, q - 1 = (b : Int) := ⟨(q - 1).toNat, by omega⟩
  have ha1 : 99 ≤ a ∧ a ≤ 499 := by omega
  have hb1 : 99 ≤ b ∧ b ≤ 499 := by omega
  have hphi_lo : 99 * 99 ≤ a * b := Nat.mul_le_mul ha1.1 hb1.1
  have hphi_hi : a * b ≤ 499 * 499 := Nat.mul_le_mul ha1.2 hb1.2
  have hphi : (p - 1) * (q - 1) = ((a * b : Nat) : Int) := by
    rw [ha, hb]; push_cast; ring
  have hpq_lo : 100 * 100 ≤ p * q := mul_le_mul hp_lo hq_lo (by norm_num) (by omega)
  have hpq_hi : p * q ≤ 500 * 500 := mul_le_mul hp_hi hq_hi (by omega) (by norm_num)
  have hgcdN : Nat.gcd 65537 (a * b) = 1 :=
    coprime_65537_totient a b (by omega) (by omega) (by omega) (by omega)
  have hgcdI : Int.gcd 65537 ((p - 1) * (q - 1)) = 1 := by
    rw [hphi]
    exact hgcdN
  have hWn : wrap64 (p * q) = p * q := wrap64_of_inRange _ (by omega) (by omega)
  have hWp : wrap64 (p - 1) = p - 1 := wrap64_of_inRange _ (by omega) (by omega)
  have hWq : wrap64 (q - 1) = q - 1 := wrap64_of_inRange _ (by omega) (by omega)
  have hWphi : wrap64 ((p - 1) * (q - 1)) = (p - 1) * (q - 1) := by
    rw [hphi]
    exact wrap64_of_inRange _ (by omega) (by omega)
  have hloop : findExponent wrap64 fuel fuel 65537 ((p - 1) * (q - 1)) = some 65537 := by
    obtain ⟨f, rfl⟩ : ∃ f, fuel = f + 1 := ⟨fuel - 1, by omega⟩
    unfold findExponent
    rw [gcd_loop_nonneg (f + 1) 65537 ((p - 1) * (q - 1)) (by norm_num) (by rw [hphi]; omega)
      (by rw [hphi]; simp; omega), hgcdI]
    simp
  obtain ⟨d, hd, hd0, hdlt, hdmul⟩ :=
    (modInverse_spec wrap64 wrap64_of_inRange 65537 ((p - 1) * (q - 1)) (by norm_num)
      (by norm_num) (by rw [hphi]; omega) (by rw [hphi]; omega) fuel (by simp; omega)).2 hgcdI
  refine ⟨d, ?_, hgcdI, hd0, hdlt, ?_⟩
  · unfold generateKeysFrom
    simp only [hWn, hWp, hWq, hWphi, hloop, hd]
  · rw [hdmul]
    exact Int.emod_eq_of_lt (by norm_num) (by rw [hphi]; omega)

/-- C2: for distinct primes `p`, `q` in `[100, 500]` the key derived by
`generateKeys` has a private exponent `d` that is not the sentinel `-1`, lies
in `[0, (p-1)*(q-1))` and satisfies `(e*d) mod ((p-1)*(q-1)) = 1`. -/
theorem generateKeys_exponents_mutually_inverse (p q : Int)
    (_hp : Nat.Prime p.toNat) (_hq : Nat.Prime q.toNat)
    (hp_lo : 100 ≤ p) (hp_hi : p ≤ 500) (hq_lo : 100 ≤ q) (hq_hi : q ≤ 500) (_hpq : p ≠ q)
    (fuel : Nat) (hfuel : 249001 < fuel) :
    ∃ key : Key, generateKeysFrom wrap64 fuel p q = some key ∧
      key.d ≠ -1 ∧ 0 ≤ key.d ∧ key.d < (p - 1) * (q - 1) ∧
      (key.e * key.d) % ((p - 1) * (q - 1)) = 1 := by
  obtain ⟨d, hkey, _, hd0, hdlt, hmul⟩ :=
    generateKeysFrom_spec p q hp_lo hp_hi hq_lo hq_hi fuel hfuel
  exact ⟨_, hkey, by dsimp only; omega, hd0, hdlt, hmul⟩

theorem generateKeys_exponents_mutually_inverse_witness :
    Nat.Prime (101 : Int).toNat ∧ Nat.Prime (113 : Int).toNat ∧
      (100 : Int) ≤ 101 ∧ (101 : Int) ≤ 500 ∧ (100 : Int) ≤ 113 ∧ (113 : Int) ≤ 500 ∧
      (101 : Int) ≠ 113 ∧ 249001 < 249002 ∧
      ∃ key : Key, generateKeysFrom wrap64 249002 101 113 = some key ∧
        key.d ≠ -1 ∧ 0 ≤ key.d ∧ key.d < (101 - 1) * (113 - 1) ∧
        (key.e * key.d) % ((101 - 1) * (113 - 1)) = 1 :=
  ⟨prime_toNat_101, prime_toNat_113, by decide, by decide, by decide, by decide, by decide, by decide,
    generateKeys_exponents_mutually_inverse 101 113 prime_toNat_101 prime_toNat_113 (by decide)
      (by decide) (by decide) (by decide) (by decide) 249002 (by decide)⟩

/-- C3: for distinct primes `p`, `q` in `[100, 500]` the key derived by
`generateKeys` has modulus `n = p*q` and a public exponent `e` with
`gcd(e, (p-1)*(q-1)) = 1`. -/
theorem generateKeys_modulus_and_public_exponent (p q : Int)
    (_hp : Nat.Prime p.toNat) (_hq : Nat.Prime q.toNat)
    (hp_lo : 100 ≤ p) (hp_hi : p ≤ 500) (hq_lo : 100 ≤ q) (hq_hi : q ≤ 500) (_hpq : p ≠ q)
    (fuel : Nat) (hfuel : 249001 < fuel) :
    ∃ key : Key, generateKeysFrom wrap64 fuel p q = some key ∧
      key.n = p * q ∧ Int.gcd key.e ((p - 1) * (q - 1)) = 1 := by
  obtain ⟨d, hkey, hg, _⟩ := generateKeysFrom_spec p q hp_lo hp_hi hq_lo hq_hi fuel hfuel
  exact ⟨_, hkey, rfl, hg⟩

theorem generateKeys_modulus_and_public_exponent_witness :
    Nat.Prime (101 : Int).toNat ∧ Nat.Prime (113 : Int).toNat ∧
      (100 : Int) ≤ 101 ∧ (101 : Int) ≤ 500 ∧ (100 : Int) ≤ 113 ∧ (113 : Int) ≤ 500 ∧
      (101 : Int) ≠ 113 ∧ 249001 < 249002 ∧
      ∃ key : Key, generateKeysFrom wrap64 249002 101 113 = some key ∧
        key.n = 101 * 113 ∧ Int.gcd key.e ((101 - 1) * (113 - 1)) = 1 :=
  ⟨prime_toNat_101, prime_toNat_113, by decide, by decide, by decide, by decide, by decide, by decide,
    generateKeys_modulus_and_public_exponent 101 113 prime_toNat_101 prime_toNat_113 (by decide)
      (by decide) (by decide) (by decide) (by decide) 249002 (by decide)⟩

/-! ## C1: the round-trip law in exact arithmetic -/

theorem pow_modEq_self_of_prime (p : Nat) (hp : Nat.Prime p) (m : Int) (j : Nat) :
    m ^ ((p - 1) * j + 1) ≡ m [ZMOD (p : Int)] := by
  by_cases hdvd : (p : Int) ∣ m
  · have h0 : m ≡ 0 [ZMOD (p : Int)] := Int.modEq_zero_iff_dvd.mpr hdvd
    have h1 : m ^ ((p - 1) * j + 1) ≡ 0 [ZMOD (p : Int)] := by
      apply Int.modEq_zero_iff_dvd.mpr
      exact Dvd.dvd.trans hdvd (dvd_pow_self m (by omega))
    exact h1.trans h0.symm
  · have hprime : Prime (p : Int) := Nat.prime_iff_prime_int.mp hp
    have hcop : IsCoprime m (p : Int) :=
      (Prime.coprime_iff_not_dvd hprime).mpr hdvd |>.symm
    have hf := Int.ModEq.pow_card_sub_one_eq_one hp hcop
    have h2 : (m ^ (p - 1)) ^ j ≡ 1 ^ j [ZMOD (p : Int)] := hf.pow j
    rw [one_pow] at h2
    have h3 : (m ^ (p - 1)) ^ j * m ≡ 1 * m [ZMOD (p : Int)] := h2.mul_right m
    rw [pow_succ, pow_mul]
    simpa using h3

/-- The arithmetic core of RSA: for distinct primes `p`, `q` and an exponent
`E` with `E ≡ 1` modulo `(p-1)*(q-1)`, `m^E ≡ m` modulo `p*q`. -/
theorem rsa_core (p q : Nat) (hp : Nat.Prime p) (hq : Nat.Prime q) (hpq : p ≠ q)
    (E : Nat) (hE : E % ((p - 1) * (q - 1)) = 1) (m : Int) :
    m ^ E ≡ m [ZMOD ((p : Int) * (q : Int))] := by
  have hdecomp : E = (p - 1) * (q - 1) * (E / ((p - 1) * (q - 1))) + 1 := by
    have := Nat.div_add_mod E ((p - 1) * (q - 1))
    omega
  have hcop : (p : Int).natAbs.Coprime (q : Int).natAbs := by
    simpa using (Nat.coprime_primes hp hq).mpr hpq
  apply (Int.modEq_and_modEq_iff_modEq_mul hcop).mp
  constructor
  · have h := pow_modEq_self_of_prime p hp m ((q - 1) * (E / ((p - 1) * (q - 1))))
    rw [← mul_assoc, ← hdecomp] at h
    exact h
  · have h := pow_modEq_self_of_prime q hq m ((p - 1) * (E / ((p - 1) * (q - 1))))
    have hre : (q - 1) * ((p - 1) * (E / ((p - 1) * (q - 1)))) + 1 = E := by
      conv_rhs => rw [hdecomp]
      ring
    rw [hre] at h
    exact h

theorem encryptLoop_map (W : Int → Int) (fuel : Nat) (key : Key) (f : CChar → Int)
    (msg : List CChar) :
    ∀ acc : List Int, (∀ c ∈ msg, encryptChar W fuel key c = some (f c)) →
      encryptLoop W fuel key msg acc = some (acc ++ msg.map f) := by
  induction msg with
  | nil => intro acc _; simp [encryptLoop]
  | cons c rest ih =>
    intro acc h
    unfold encryptLoop
    rw [h c (List.mem_cons_self c rest)]
    dsimp only
    rw [ih (acc ++ [f c]) (fun c1 hc1 => h c1 (List.mem_cons_of_mem c hc1))]
    simp

theorem decryptLoop_map (W : Int → Int) (fuel : Nat) (key : Key) (g : Int → CChar)
    (enc : List Int) :
    ∀ acc : List CChar, (∀ u ∈ enc, decryptChar W fuel key u = some (g u)) →
      decryptLoop W fuel key enc acc = some (acc ++ enc.map g) := by
  induction enc with
  | nil => intro acc _; simp [decryptLoop]
  | cons u rest ih =>
    intro acc h
    unfold decryptLoop
    rw [h u (List.mem_cons_self u rest)]
    dsimp only
    rw [ih (acc ++ [g u]) (fun u1 hu1 => h u1 (List.mem_cons_of_mem u hu1))]
    simp

theorem toCChar_ofCChar (c : CChar) : toCChar (ofCChar c) = c := by
  apply Subtype.ext
  have h := c.property
  show (c.val + 128) % 256 - 128 = c.val
  omega

/-- C1: round-trip law in exact arithmetic.  For a key `(n, e, d)` with
`n = p*q` for distinct primes `p`, `q`, `e ≥ 0`, `d ≥ 0` and
`e*d ≡ 1 (mod (p-1)*(q-1))`, and a message whose symbol codes all lie in
`[0, n)`, `encrypt` returns a cipher sequence on which `decrypt` returns
exactly the message (given fuel above the bit length of `e` and `d`). -/
theorem decrypt_encrypt_roundtrip (key : Key) (p q : Nat) (hp : Nat.Prime p)
    (hq : Nat.Prime q) (hpq : p ≠ q) (hn : key.n = (p : Int) * (q : Int))
    (he : 0 ≤ key.e) (hd : 0 ≤ key.d)
    (hed : key.e * key.d ≡ 1 [ZMOD ((p : Int) - 1) * ((q : Int) - 1)])
    (message : List CChar) (hmsg : ∀ c ∈ message, 0 ≤ ofCChar c ∧ ofCChar c < key.n)
    (k : Nat) (hek : key.e < 2 ^ k) (hdk : key.d < 2 ^ k) (fuel : Nat) (hfuel : k < fuel) :
    ∃ encrypted : List Int, encrypt exact fuel key message = some encrypted ∧
      decrypt exact fuel key encrypted = some message := by
  obtain ⟨n, e, d⟩ := key
  dsimp only at hn he hd hed hmsg hek hdk
  obtain ⟨e1, rfl⟩ := Int.eq_ofNat_of_zero_le he
  obtain ⟨d1, rfl⟩ := Int.eq_ofNat_of_zero_le hd
  have hp2 := hp.two_le
  have hq2 := hq.two_le
  have hn1 : 1 < n := by
    rw [hn]
    have : (2 : Int) * 2 ≤ (p : Int) * (q : Int) :=
      mul_le_mul (by exact_mod_cast hp2) (by exact_mod_cast hq2) (by norm_num) (by positivity)
    omega
  have hW : ∀ x, 0 ≤ x → x ≤ (n - 1) * (n - 1) → exact x = x := fun _ _ _ => rfl
  have he1 : e1 < 2 ^ k := by exact_mod_cast hek
  have hd1 : d1 < 2 ^ k := by exact_mod_cast hdk
  -- the exponent `e*d` is `1` modulo the totient
  have hphi : ((p : Int) - 1) * ((q : Int) - 1) = (((p - 1) * (q - 1) : Nat) : Int) := by
    push_cast [Nat.cast_sub (by omega : 1 ≤ p), Nat.cast_sub (by omega : 1 ≤ q)]
    ring
  have hE : (e1 * d1) % ((p - 1) * (q - 1)) = 1 := by
    rw [hphi] at hed
    have h1 : ((e1 * d1 : Nat) : Int) ≡ ((1 : Nat) : Int) [ZMOD (((p - 1) * (q - 1) : Nat) : Int)] := by
      push_cast
      push_cast at hed
      exact hed
    have h2 : e1 * d1 ≡ 1 [MOD (p - 1) * (q - 1)] := Int.natCast_modEq_iff.mp h1
    have hne : (p - 1) * (q - 1) ≠ 1 := by
      intro h
      have hp1 : p - 1 = 1 := Nat.eq_one_of_mul_eq_one_right h
      have hq1 : q - 1 = 1 := Nat.eq_one_of_mul_eq_one_left h
      omega
    have hpos : 0 < (p - 1) * (q - 1) := Nat.mul_pos (by omega) (by omega)
    unfold Nat.ModEq at h2
    rw [h2]
    exact Nat.mod_eq_of_lt (by omega)
  have hcore : ∀ m : Int, m ^ (e1 * d1) ≡ m [ZMOD n] := by
    intro m
    rw [hn]
    exact rsa_core p q hp hq hpq (e1 * d1) hE m
  -- one symbol
  have henc : ∀ c ∈ message,
      encryptChar exact fuel ⟨n, e1, d1⟩ c = some (ofCChar c ^ e1 % n) := by
    intro c hc
    exact modPow_spec exact n hn1 hW (ofCChar c) (hmsg c hc).1 k e1 he1 fuel hfuel
  have hdec : ∀ u ∈ message.map (fun c => ofCChar c ^ e1 % n),
      decryptChar exact fuel ⟨n, e1, d1⟩ u = some (toCChar (u ^ d1 % n)) := by
    intro u hu
    obtain ⟨c, _, rfl⟩ := List.mem_map.mp hu
    unfold decryptChar
    dsimp only
    rw [modPow_spec exact n hn1 hW _ (Int.emod_nonneg _ (by omega)) k d1 hd1 fuel hfuel]
  have hround : ∀ c ∈ message, toCChar ((ofCChar c ^ e1 % n) ^ d1 % n) = c := by
    intro c hc
    have h1 : (ofCChar c ^ e1 % n) ^ d1 ≡ (ofCChar c ^ e1) ^ d1 [ZMOD n] :=
      (Int.mod_modEq _ _).pow d1
    have h2 : (ofCChar c ^ e1 % n) ^ d1 ≡ ofCChar c [ZMOD n] := by
      rw [← pow_mul] at h1
      exact h1.trans (hcore _)
    have h3 : (ofCChar c ^ e1 % n) ^ d1 % n = ofCChar c := by
      rw [h2]
      exact Int.emod_eq_of_lt (hmsg c hc).1 (hmsg c hc).2
    rw [h3, toCChar_ofCChar]
  refine ⟨message.map (fun c => ofCChar c ^ e1 % n), ?_, ?_⟩
  · unfold encrypt
    rw [encryptLoop_map exact fuel _ (fun c => ofCChar c ^ e1 % n) message [] henc]
    simp
  · unfold decrypt
    rw [decryptLoop_map exact fuel _ (fun u => toCChar (u ^ d1 % n)) _ [] hdec]
    simp only [List.nil_append, List.map_map, Option.some.injEq]
    conv_rhs => rw [← List.map_id message]
    apply List.map_congr_left
    intro c hc
    exact hround c hc

theorem decrypt_encrypt_roundtrip_witness :
    Nat.Prime 101 ∧ Nat.Prime 113 ∧ 101 ≠ 113 ∧
      (11413 : Int) = ((101 : Nat) : Int) * ((113 : Nat) : Int) ∧
      (0 : Int) ≤ 65537 ∧ (0 : Int) ≤ 7873 ∧
      ((65537 : Int) * 7873 ≡ 1 [ZMOD (((101 : Nat) : Int) - 1) * (((113 : Nat) : Int) - 1)]) ∧
      (∀ c ∈ [toCChar 72, toCChar 105], 0 ≤ ofCChar c ∧ ofCChar c < 11413) ∧
      (65537 : Int) < 2 ^ 17 ∧ (7873 : Int) < 2 ^ 17 ∧ 17 < 18 ∧
      ∃ encrypted : List Int,
        encrypt exact 18 ⟨11413, 65537, 7873⟩ [toCChar 72, toCChar 105] = some encrypted ∧
        decrypt exact 18 ⟨11413, 65537, 7873⟩ encrypted = some [toCChar 72, toCChar 105] :=
  ⟨by norm_num, by norm_num, by decide, by decide, by decide, by decide, by decide,
    by decide, by decide, by decide, by decide,
    decrypt_encrypt_roundtrip ⟨11413, 65537, 7873⟩ 101 113 (by norm_num) (by norm_num)
      (by decide) (by decide) (by decide) (by decide) (by decide)
      [toCChar 72, toCChar 105] (by decide) 17 (by decide) (by decide) 18 (by decide)⟩

/-! ## C7: `isPrime` -/

theorem wrap64_sq_small (i : Nat) (hi : i ≤ 3037000499) :
    wrap64 ((i : Int) * (i : Int)) = ((i * i : Nat) : Int) := by
  have h : i * i ≤ 3037000499 * 3037000499 := Nat.mul_le_mul hi hi
  have h1 : ((i * i : Nat) : Int) ≤ 3037000499 * 3037000499 := by exact_mod_cast h
  rw [← Nat.cast_mul]
  exact wrap64_of_inRange _ (by omega) (by omega)

theorem wrap64_add_two (i : Nat) (hi : i ≤ 4611686018427387904) :
    wrap64 ((i : Int) + 2) = ((i + 2 : Nat) : Int) := by
  rw [wrap64_of_inRange _ (by omega) (by omega)]
  rfl

theorem tmod_natCast_ne_zero (N i : Nat) (h : ¬ i ∣ N) : ¬ ((N : Int).tmod (i : Int) = 0) := by
  intro h0
  apply h
  have h1 : ((N % i : Nat) : Int) = 0 := by
    rw [Int.ofNat_tmod]
    exact h0
  exact Nat.dvd_of_mod_eq_zero (by exact_mod_cast h1)

/-- The trial-division loop on an odd composite `N` whose least factor is
`f`, for a reading `W` exact on `[0, N]`: entered at an odd `i ≤ f`, it
returns `false` at `i = f`; no square `i*i` is misread before, because
`i*i ≤ f*f ≤ N`. -/
theorem isPrimeLoop_composite (W : Int → Int) (N f : Nat)
    (hW : ∀ x : Int, 0 ≤ x → x ≤ (N : Int) → W x = x)
    (hfodd : f % 2 = 1) (hfdvd : f ∣ N) (hfsq : f * f ≤ N)
    (hmin : ∀ m, 2 ≤ m → m < f → ¬ m ∣ N) (j : Nat) :
    ∀ i : Nat, i % 2 = 1 → 3 ≤ i → i ≤ f → f < i + 2 * j →
      isPrimeLoop W j (N : Int) (i : Int) = some false := by
  induction j with
  | zero => intro i _ _ h1 h2; omega
  | succ j ih =>
    intro i hodd h3 hif hj
    have hsq : i * i ≤ N := le_trans (Nat.mul_le_mul hif hif) hfsq
    have hff : f ≤ f * f := Nat.le_mul_self f
    have hWsq : W ((i : Int) * (i : Int)) = ((i * i : Nat) : Int) := by
      rw [← Nat.cast_mul]
      exact hW _ (Int.ofNat_nonneg _) (by exact_mod_cast hsq)
    unfold isPrimeLoop
    rw [hWsq, if_pos (by exact_mod_cast hsq), if_neg (by omega)]
    by_cases hieq : i = f
    · subst hieq
      have h0 : (N : Int).tmod (i : Int) = 0 := by
        rw [← Int.ofNat_tmod, Nat.mod_eq_zero_of_dvd hfdvd]
        rfl
      rw [if_pos h0]
    · rw [if_neg (tmod_natCast_ne_zero N i (hmin i (by omega) (by omega)))]
      have hWadd : W ((i : Int) + 2) = ((i + 2 : Nat) : Int) := by
        rw [hW _ (by omega) (by omega)]
        rfl
      rw [hWadd]
      exact ih (i + 2) (by omega) (by omega) (by omega) (by omega)

/-- The odd number whose square is `2^63 - 7` modulo `2^64`. -/
theorem wrap64_sq_exit :
    wrap64 ((2759374635167858507 : Int) * 2759374635167858507) = 9223372036854775801 := by
  decide

/-- The trial-division loop of the 64-bit machine on an odd prime
`N < 2^63 - 7`: entered at an odd `i`, it returns `true`.  Below `3037000500`
squares do not wrap and the loop exits when `i*i > N`; for `N ≥ 3037000499²`
the squares wrap, every `i` reached stays below `N`, and the loop exits at the
latest at `i = 2759374635167858507`, whose wrapped square is `2^63 - 7 > N`. -/
theorem isPrimeLoop_prime (N : Nat) (hN : Nat.Prime N) (hN63 : N < 9223372036854775801)
    (j : Nat) :
    ∀ i : Nat, i % 2 = 1 → 3 ≤ i → i ≤ 2759374635167858507 →
      (3037000499 < i → 3037000499 * 3037000499 ≤ N) →
      2759374635167858507 < i + 2 * j →
      isPrimeLoop wrap64 j (N : Int) (i : Int) = some true := by
  induction j with
  | zero => intro i _ _ h1 _ h2; omega
  | succ j ih =>
    intro i hodd h3 his hbig hj
    unfold isPrimeLoop
    by_cases hle : wrap64 ((i : Int) * (i : Int)) ≤ (N : Int)
    · rw [if_pos hle, if_neg (by omega)]
      have hne : i ≠ 2759374635167858507 := by
        intro h
        subst h
        have h1 := wrap64_sq_exit
        simp only [Nat.cast_ofNat] at hle
        rw [h1] at hle
        omega
      have hiN : i < N := by
        by_cases hsmall : i ≤ 3037000499
        · rw [wrap64_sq_small i hsmall] at hle
          have h1 : i * i ≤ N := by exact_mod_cast hle
          have h2 : i * 3 ≤ i * i := Nat.mul_le_mul_left i h3
          omega
        · have := hbig (by omega)
          omega
      have hnd : ¬ i ∣ N := by
        intro hd
        rcases (Nat.dvd_prime hN).mp hd with h | h <;> omega
      rw [if_neg (tmod_natCast_ne_zero N i hnd), wrap64_add_two i (by omega)]
      apply ih (i + 2) (by omega) (by omega) (by omega) _ (by omega)
      intro hnext
      by_cases hsmall : i ≤ 3037000499
      · have hi : i = 3037000499 := by omega
        subst hi
        rw [wrap64_sq_small _ (le_refl _)] at hle
        exact_mod_cast hle
      · exact hbig (by omega)
    · rw [if_neg hle]

/-- The trial-division loop in exact arithmetic on an odd prime `N`: entered
at an odd `i`, it returns `true` as soon as `i*i > N`. -/
theorem isPrimeLoop_prime_exact (N : Nat) (hN : Nat.Prime N) (j : Nat) :
    ∀ i : Nat, 3 ≤ i → i ≤ N → N < i + 2 * j →
      isPrimeLoop exact j (N : Int) (i : Int) = some true := by
  induction j with
  | zero => intro i _ h1 h2; omega
  | succ j ih =>
    intro i h3 hiN hj
    unfold isPrimeLoop
    by_cases hle : exact ((i : Int) * (i : Int)) ≤ (N : Int)
    · have h1 : i * i ≤ N := by
        unfold exact at hle
        exact_mod_cast hle
      have h2 : i * 3 ≤ i * i := Nat.mul_le_mul_left i h3
      have hnd : ¬ i ∣ N := by
        intro hd
        rcases (Nat.dvd_prime hN).mp hd with h | h <;> omega
      rw [if_pos hle, if_neg (by omega), if_neg (tmod_natCast_ne_zero N i hnd)]
      have hadd : exact ((i : Int) + 2) = ((i + 2 : Nat) : Int) := rfl
      rw [hadd]
      exact ih (i + 2) (by omega) (by omega) (by omega)
    · rw [if_neg hle]

theorem not_prime_near_two_pow_63 (N : Nat) (hN : Nat.Prime N) (hodd : N % 2 = 1)
    (hN63 : N < 9223372036854775808) : N < 9223372036854775801 := by
  by_contra hcon
  have hcases : N = 9223372036854775801 ∨ N = 9223372036854775803 ∨
      N = 9223372036854775805 ∨ N = 9223372036854775807 := by omega
  rcases hcases with h | h | h | h
  · have hd : 157 ∣ N := by rw [h]; decide
    rcases (Nat.dvd_prime hN).mp hd with h1 | h1 <;> omega
  · have hd : 3 ∣ N := by rw [h]; decide
    rcases (Nat.dvd_prime hN).mp hd with h1 | h1 <;> omega
  · have hd : 5 ∣ N := by rw [h]; decide
    rcases (Nat.dvd_prime hN).mp hd with h1 | h1 <;> omega
  · have hd : 7 ∣ N := by rw [h]; decide
    rcases (Nat.dvd_prime hN).mp hd with h1 | h1 <;> omega

/-- The three early returns of `isPrime` are right for every reading; what
remains is the loop on an odd `n ≥ 3`. -/
theorem isPrime_of_loop (W : Int → Int) (fuel : Nat) (n : Int)
    (hloop : ∀ N : Nat, n = (N : Int) → 3 ≤ N → N % 2 = 1 →
      isPrimeLoop W fuel (N : Int) 3 = some (decide (Nat.Prime N))) :
    isPrime W fuel n = some (decide (Nat.Prime n.toNat)) := by
  unfold isPrime
  by_cases h2 : n < 2
  · rw [if_pos h2]
    have : ¬ Nat.Prime n.toNat := by
      intro hp
      have := hp.two_le
      omega
    simp [this]
  · rw [if_neg h2]
    by_cases h2e : n = 2
    · subst h2e
      simp [Nat.prime_two]
    · rw [if_neg h2e]
      obtain ⟨N, rfl⟩ := Int.eq_ofNat_of_zero_le (by omega : (0 : Int) ≤ n)
      have hN3 : 3 ≤ N := by omega
      simp only [Int.toNat_ofNat]
      have hmod2 : (N : Int).tmod 2 = ((N % 2 : Nat) : Int) := (Int.ofNat_tmod N 2).symm
      rw [hmod2]
      by_cases heven : N % 2 = 0
      · rw [heven]
        simp only [Nat.cast_zero, if_true]
        have : ¬ Nat.Prime N := by
          intro hp
          rcases (Nat.dvd_prime hp).mp (Nat.dvd_of_mod_eq_zero heven) with h | h <;> omega
        simp [this]
      · have hodd : N % 2 = 1 := by omega
        rw [hodd]
        simp only [Nat.cast_one, one_ne_zero, if_false]
        exact hloop N rfl hN3 hodd

/-- The loop of `isPrime` on an odd composite `N ≥ 3`, for a reading exact on
`[0, N]` and fuel above `N / 2`. -/
theorem isPrimeLoop_not_prime (W : Int → Int) (N : Nat)
    (hW : ∀ x : Int, 0 ≤ x → x ≤ (N : Int) → W x = x) (hN3 : 3 ≤ N) (hodd : N % 2 = 1)
    (hp : ¬ Nat.Prime N) (fuel : Nat) (hfuel : N < 3 + 2 * fuel) :
    isPrimeLoop W fuel (N : Int) 3 = some false := by
  have hf_prime : Nat.Prime (Nat.minFac N) := Nat.minFac_prime (by omega)
  have hf_dvd : Nat.minFac N ∣ N := Nat.minFac_dvd N
  have hf_sq : Nat.minFac N * Nat.minFac N ≤ N := by
    have := Nat.minFac_sq_le_self (by omega : 0 < N) hp
    rw [pow_two] at this
    exact this
  have hf_odd : Nat.minFac N % 2 = 1 := by
    by_contra hcon
    have h2d : 2 ∣ Nat.minFac N := Nat.dvd_of_mod_eq_zero (by omega)
    have := Nat.dvd_trans h2d hf_dvd
    omega
  have hf2 := hf_prime.two_le
  have hf_le : Nat.minFac N ≤ N := Nat.minFac_le (by omega)
  exact isPrimeLoop_composite W N (Nat.minFac N) hW hf_odd hf_dvd hf_sq
    (fun m hm2 hmf hmd => by
      have := Nat.minFac_le_of_dvd hm2 hmd
      omega) fuel 3 (by norm_num) (by norm_num) (by omega) (by omega)

/-- Source `isPrime` on the 64-bit machine decides primality of every
`long long` value, given `2^62` units of fuel. -/
theorem isPrime_spec (n : Int) (hhi : n < 9223372036854775808) (fuel : Nat)
    (hfuel : 4611686018427387904 ≤ fuel) :
    isPrime wrap64 fuel n = some (decide (Nat.Prime n.toNat)) := by
  apply isPrime_of_loop
  intro N hn hN3 hodd
  have hN63 : N < 9223372036854775808 := by omega
  by_cases hp : Nat.Prime N
  · have h := isPrimeLoop_prime N hp (not_prime_near_two_pow_63 N hp hodd hN63) fuel 3
      (by norm_num) (by norm_num) (by norm_num) (by intro h; omega) (by omega)
    simp only [hp, decide_True]
    exact h
  · have h := isPrimeLoop_not_prime wrap64 N
      (fun x h0 hx => wrap64_of_inRange x (by omega) (by omega)) hN3 hodd hp fuel (by omega)
    simp only [hp, decide_False]
    exact h

/-- Source `isPrime` in exact arithmetic decides primality of every integer,
given more than `n / 2` units of fuel. -/
theorem isPrime_spec_exact (n : Int) (fuel : Nat) (hfuel : n.toNat < 3 + 2 * fuel) :
    isPrime exact fuel n = some (decide (Nat.Prime n.toNat)) := by
  apply isPrime_of_loop
  intro N hn hN3 hodd
  subst hn
  simp only [Int.toNat_ofNat] at hfuel
  by_cases hp : Nat.Prime N
  · have h := isPrimeLoop_prime_exact N hp fuel 3 (by norm_num) hN3 hfuel
    simp only [hp, decide_True]
    exact h
  · have h := isPrimeLoop_not_prime exact N (fun x _ _ => rfl) hN3 hodd hp fuel hfuel
    simp only [hp, decide_False]
    exact h

/-- C7: for every 64-bit integer `n`, negative values and `n < 2` included,
`isPrime(n)` returns `true` if and only if `n` is a prime number (given `2^62`
units of fuel, which cover the longest run of the loop on the machine); the
same holds for every integer when arithmetic is exact; and with a few units of
fuel `isPrime` is `false` on `0`, `1`, `4`, `91` and `true` on `2`, `3`, `97`. -/
theorem isPrime_true_iff_prime (n : Int) (_hlo : -9223372036854775808 ≤ n)
    (hhi : n < 9223372036854775808) (fuel : Nat) (hfuel : 4611686018427387904 ≤ fuel) :
    (∃ r, isPrime wrap64 fuel n = some r ∧ (r = true ↔ Nat.Prime n.toNat)) ∧
      (∀ m : Int, ∀ f : Nat, m.toNat < 3 + 2 * f →
        ∃ r, isPrime exact f m = some r ∧ (r = true ↔ Nat.Prime m.toNat)) ∧
      isPrime wrap64 0 0 = some false ∧ isPrime wrap64 0 1 = some false ∧
      isPrime wrap64 0 4 = some false ∧ isPrime wrap64 4 91 = some false ∧
      isPrime wrap64 0 2 = some true ∧ isPrime wrap64 1 3 = some true ∧
      isPrime wrap64 5 97 = some true := by
  refine ⟨⟨_, isPrime_spec n hhi fuel hfuel, by simp⟩,
    fun m f hf => ⟨_, isPrime_spec_exact m f hf, by simp⟩, by decide, by decide, by decide,
    by decide, by decide, by decide, by decide⟩

theorem isPrime_true_iff_prime_witness :
    (-9223372036854775808 : Int) ≤ 97 ∧ (97 : Int) < 9223372036854775808 ∧
      4611686018427387904 ≤ 4611686018427387904 ∧
      ((∃ r, isPrime wrap64 4611686018427387904 97 = some r ∧
          (r = true ↔ Nat.Prime (97 : Int).toNat)) ∧
        (∀ m : Int, ∀ f : Nat, m.toNat < 3 + 2 * f →
          ∃ r, isPrime exact f m = some r ∧ (r = true ↔ Nat.Prime m.toNat)) ∧
        isPrime wrap64 0 0 = some false ∧ isPrime wrap64 0 1 = some false ∧
        isPrime wrap64 0 4 = some false ∧ isPrime wrap64 4 91 = some false ∧
        isPrime wrap64 0 2 = some true ∧ isPrime wrap64 1 3 = some true ∧
        isPrime wrap64 5 97 = some true) :=
  ⟨by decide, by decide, by decide,
    isPrime_true_iff_prime 97 (by decide) (by decide) 4611686018427387904 (by decide)⟩

/-! ## C10: `encrypt` symbol by symbol -/

/-- The loop of `modPow` returns for every reading and every argument, once
the fuel exceeds the bit length of the exponent. -/
theorem modPowLoop_returns (W : Int → Int) (mod : Int) (fuel : Nat) :
    ∀ (k : Nat) (result base exp : Int), exp < 2 ^ k → k < fuel →
      ∃ v, modPowLoop W fuel result base exp mod = some v := by
  induction fuel with
  | zero => intro k _ _ _ _ h; omega
  | succ f ih =>
    intro k result base exp hexp hk
    unfold modPowLoop
    by_cases hpos : exp > 0
    · rw [if_pos hpos]
      have hk1 : 1 ≤ k := by
        rcases k with _ | k
        · simp at hexp; omega
        · omega
      have hpow : (2 : Int) ^ k = 2 * 2 ^ (k - 1) := by
        rw [← pow_succ']
        congr 1
        omega
      have hshift : exp >>> (1 : Nat) = exp / 2 := by
        rw [Int.shiftRight_eq_div_pow]
        norm_num
      have hhalf : exp >>> (1 : Nat) < 2 ^ (k - 1) := by
        rw [hshift]
        omega
      exact ih (k - 1) _ _ _ hhalf (by omega)
    · rw [if_neg hpos]
      exact ⟨result, rfl⟩

theorem encryptChar_returns (W : Int → Int) (fuel : Nat) (key : Key) (c : CChar)
    (hn : key.n ≠ 0) (he : key.e < 9223372036854775808) (hfuel : 64 ≤ fuel) :
    ∃ u, encryptChar W fuel key c = some u := by
  unfold encryptChar modPow
  rw [if_neg hn]
  exact modPowLoop_returns W key.n fuel 63 _ _ key.e (by norm_num; omega) (by omega)

/-- C10: `encrypt` applies `encryptChar` to each symbol independently and in
order: the empty message gives the empty sequence; `encrypt` returns `out`
exactly when `out` has the length of the message and its `i`-th unit is what
`encryptChar` returns on the `i`-th symbol alone; and for a key with `n ≠ 0`
and a 64-bit `e`, 64 units of fuel make `encrypt` return such a sequence. -/
theorem encrypt_is_encryptChar_per_symbol (W : Int → Int) (fuel : Nat) (key : Key)
    (message : List CChar) :
    encrypt W fuel key [] = some [] ∧
      (∀ out : List Int, encrypt W fuel key message = some out ↔
        (message.length = out.length ∧
          ∀ (i : Nat) (h1 : i < message.length) (h2 : i < out.length),
            encryptChar W fuel key (message.get ⟨i, h1⟩) = some (out.get ⟨i, h2⟩))) ∧
      (key.n ≠ 0 → key.e < 9223372036854775808 → 64 ≤ fuel →
        ∃ out : List Int, encrypt W fuel key message = some out ∧
          out.length = message.length) := by
  refine ⟨rfl, fun out => ?_, fun hn he hfuel => ?_⟩
  · unfold encrypt
    rw [encryptLoop_spec]
    have h := @List.forall₂_iff_get _ _ (fun c u => encryptChar W fuel key c = some u)
      message out
    rw [← h]
    simp
  · refine ⟨message.map (fun c => (encryptChar W fuel key c).getD 0), ?_, by simp⟩
    unfold encrypt
    rw [encryptLoop_map W fuel key (fun c => (encryptChar W fuel key c).getD 0) message []]
    · simp
    · intro c _
      obtain ⟨u, hu⟩ := encryptChar_returns W fuel key c hn he hfuel
      rw [hu]
      rfl

theorem encrypt_is_encryptChar_per_symbol_witness :
    ∃ out : List Int,
      encrypt wrap64 64 ⟨11413, 65537, 7873⟩ [toCChar 72, toCChar 105] = some out ∧
        out.length = [toCChar 72, toCChar 105].length :=
  (encrypt_is_encryptChar_per_symbol wrap64 64 ⟨11413, 65537, 7873⟩
    [toCChar 72, toCChar 105]).2.2 (by decide) (by decide) (by decide)

/-! ## More fuel never changes a result: key generation and transform -/

theorem findExponent_mono (W : Int → Int) (fuel fuel1 : Nat) (hle : fuel ≤ fuel1) (k : Nat) :
    ∀ (e phi v : Int) (k1 : Nat), k ≤ k1 →
      findExponent W fuel k e phi = some v → findExponent W fuel1 k1 e phi = some v := by
  induction k with
  | zero => intro _ _ _ _ _ h; simp [findExponent] at h
  | succ k ih =>
    intro e phi v k1 hk h
    obtain ⟨j, rfl⟩ : ∃ j, k1 = j + 1 := ⟨k1 - 1, by omega⟩
    unfold findExponent at h ⊢
    cases hg : gcd fuel e phi with
    | none => simp [hg] at h
    | some g =>
      rw [gcd_mono fuel e phi g fuel1 hle hg]
      rw [hg] at h
      dsimp only at h ⊢
      by_cases hg1 : g ≠ 1
      · rw [if_pos hg1] at h ⊢
        exact ih _ _ _ j (by omega) h
      · rw [if_neg hg1] at h ⊢
        exact h

theorem generateKeysFrom_mono (W : Int → Int) (fuel fuel1 : Nat) (hle : fuel ≤ fuel1)
    (p q : Int) (key : Key) (h : generateKeysFrom W fuel p q = some key) :
    generateKeysFrom W fuel1 p q = some key := by
  unfold generateKeysFrom at h ⊢
  dsimp only at h ⊢
  cases he : findExponent W fuel fuel 65537 (W (W (p - 1) * W (q - 1))) with
  | none => simp [he] at h
  | some e =>
    rw [findExponent_mono W fuel fuel1 hle fuel _ _ e fuel1 hle he]
    rw [he] at h
    dsimp only at h ⊢
    cases hd : modInverse W fuel e (W (W (p - 1) * W (q - 1))) with
    | none => simp [hd] at h
    | some d =>
      rw [modInverse_mono W fuel fuel1 hle _ _ d hd]
      rw [hd] at h
      exact h

theorem encryptChar_mono (W : Int → Int) (fuel fuel1 : Nat) (hle : fuel ≤ fuel1)
    (key : Key) (c : CChar) (u : Int) (h : encryptChar W fuel key c = some u) :
    encryptChar W fuel1 key c = some u :=
  modPow_mono W fuel fuel1 hle _ _ _ u h

theorem decryptChar_mono (W : Int → Int) (fuel fuel1 : Nat) (hle : fuel ≤ fuel1)
    (key : Key) (u : Int) (c : CChar) (h : decryptChar W fuel key u = some c) :
    decryptChar W fuel1 key u = some c := by
  unfold decryptChar at h ⊢
  cases hm : modPow W fuel u key.d key.n with
  | none => simp [hm] at h
  | some m =>
    rw [modPow_mono W fuel fuel1 hle _ _ _ m hm]
    rw [hm] at h
    exact h

theorem encryptLoop_mono (W : Int → Int) (fuel fuel1 : Nat) (hle : fuel ≤ fuel1)
    (key : Key) (msg : List CChar) :
    ∀ acc out : List Int, encryptLoop W fuel key msg acc = some out →
      encryptLoop W fuel1 key msg acc = some out := by
  induction msg with
  | nil => intro acc out h; exact h
  | cons c rest ih =>
    intro acc out h
    unfold encryptLoop at h ⊢
    cases hc : encryptChar W fuel key c with
    | none => simp [hc] at h
    | some u =>
      rw [encryptChar_mono W fuel fuel1 hle key c u hc]
      rw [hc] at h
      exact ih _ _ h

theorem decryptLoop_mono (W : Int → Int) (fuel fuel1 : Nat) (hle : fuel ≤ fuel1)
    (key : Key) (enc : List Int) :
    ∀ (acc out : List CChar), decryptLoop W fuel key enc acc = some out →
      decryptLoop W fuel1 key enc acc = some out := by
  induction enc with
  | nil => intro acc out h; exact h
  | cons u rest ih =>
    intro acc out h
    unfold decryptLoop at h ⊢
    cases hc : decryptChar W fuel key u with
    | none => simp [hc] at h
    | some s =>
      rw [decryptChar_mono W fuel fuel1 hle key u s hc]
      rw [hc] at h
      exact ih _ _ h

/-! ## C11: the scenario `p = 101`, `q = 113` -/

/-- C11: for `p = 101`, `q = 113` the key derivation of `generateKeys` forms
the totient `11200`, finds `gcd(65537, 11200) = 1`, and yields the modulus
`11413` and the public exponent `65537` (with `d = 7873`), also when run as
a whole on the draws `101`, `113`; with that key
`encrypt("Hi")` returns two cipher units on which `decrypt` returns `"Hi"`.
All of it holds for every fuel from `18` on. -/
theorem scenario_101_113 :
    wrap64 (wrap64 (101 - 1) * wrap64 (113 - 1)) = 11200 ∧
      wrap64 (101 * 113) = 11413 ∧
      generateKeys wrap64 18 [101, 113] = some ⟨11413, 65537, 7873⟩ ∧
      ∀ fuel, 18 ≤ fuel →
        gcd fuel 65537 11200 = some 1 ∧
        generateKeysFrom wrap64 fuel 101 113 = some ⟨11413, 65537, 7873⟩ ∧
        encrypt wrap64 fuel ⟨11413, 65537, 7873⟩ [toCChar 72, toCChar 105]
          = some [10983, 399] ∧
        decrypt wrap64 fuel ⟨11413, 65537, 7873⟩ [10983, 399]
          = some [toCChar 72, toCChar 105] := by
  refine ⟨by decide, by decide, by decide, fun fuel hf => ⟨?_, ?_, ?_, ?_⟩⟩
  · exact gcd_mono 18 _ _ _ fuel hf (by decide)
  · exact generateKeysFrom_mono wrap64 18 fuel hf _ _ _ (by decide)
  · exact encryptLoop_mono wrap64 18 fuel hf _ _ _ _ (by decide)
  · exact decryptLoop_mono wrap64 18 fuel hf _ _ _ _ (by decide)

/-! ## Truncated remainder of products and powers -/

theorem tmod_mul_tmod_nonneg (x y m : Int) (hx : 0 ≤ x) (hy : 0 ≤ y) (hm : 0 < m) :
    ((x.tmod m) * y).tmod m = (x * y).tmod m := by
  have h1 : 0 ≤ x.tmod m := Int.tmod_nonneg m hx
  rw [Int.tmod_eq_emod (mul_nonneg h1 hy) hm.le, Int.tmod_eq_emod (mul_nonneg hx hy) hm.le,
    Int.tmod_eq_emod hx hm.le]
  exact (Int.mod_modEq x m).mul_right y

/-- The truncated remainder of a product only depends on the truncated
remainder of its left factor. -/
theorem tmod_mul_tmod_left (x y m : Int) (hm : 0 < m) :
    ((x.tmod m) * y).tmod m = (x * y).tmod m := by
  rcases le_or_lt 0 x with hx | hx
  · rcases le_or_lt 0 y with hy | hy
    · exact tmod_mul_tmod_nonneg x y m hx hy hm
    · have h := tmod_mul_tmod_nonneg x (-y) m hx (by omega) hm
      rw [mul_neg, mul_neg, neg_tmod_eq, neg_tmod_eq] at h
      exact neg_injective h
  · have hxn : x.tmod m = -((-x).tmod m) := by
      have := neg_tmod_eq (-x) m
      rw [neg_neg] at this
      exact this
    rcases le_or_lt 0 y with hy | hy
    · have h := tmod_mul_tmod_nonneg (-x) y m (by omega) hy hm
      rw [hxn, neg_mul, neg_tmod_eq, h, neg_mul, neg_tmod_eq, neg_neg]
    · have h := tmod_mul_tmod_nonneg (-x) (-y) m (by omega) (by omega) hm
      rw [hxn]
      have e1 : -(-x).tmod m * y = (-x).tmod m * -y := by ring
      have e2 : x * y = -x * -y := by ring
      rw [e1, e2, h]

theorem tmod_mul_tmod_right (x y m : Int) (hm : 0 < m) :
    (x * (y.tmod m)).tmod m = (x * y).tmod m := by
  rw [mul_comm x (y.tmod m), tmod_mul_tmod_left y x m hm, mul_comm]

theorem tmod_pow_tmod (x m : Int) (hm : 0 < m) (k : Nat) :
    ((x.tmod m) ^ k).tmod m = (x ^ k).tmod m := by
  induction k with
  | zero => simp
  | succ k ih =>
    rw [pow_succ, pow_succ, ← tmod_mul_tmod_left ((x.tmod m) ^ k) (x.tmod m) m hm, ih,
      tmod_mul_tmod_left (x ^ k) (x.tmod m) m hm, tmod_mul_tmod_right (x ^ k) x m hm]

theorem tmod_eq_self_of_abs_lt (x m : Int) (hlo : -m < x) (hhi : x < m) : x.tmod m = x := by
  rcases le_or_lt 0 x with hx | hx
  · exact Int.tmod_eq_of_lt hx hhi
  · have h := neg_tmod_eq (-x) m
    rw [neg_neg] at h
    rw [h, Int.tmod_eq_of_lt (by omega) (by omega), neg_neg]

theorem mul_abs_le_sq (m a b : Int) (ha1 : -m < a) (ha2 : a < m) (hb1 : -m < b) (hb2 : b < m) :
    -((m - 1) * (m - 1)) ≤ a * b ∧ a * b ≤ (m - 1) * (m - 1) := by
  have h1 : |a| ≤ m - 1 := abs_le.mpr ⟨by omega, by omega⟩
  have h2 : |b| ≤ m - 1 := abs_le.mpr ⟨by omega, by omega⟩
  have h3 : |a * b| ≤ (m - 1) * (m - 1) := by
    rw [abs_mul]
    exact mul_le_mul h1 h2 (abs_nonneg b) (by omega)
  exact ⟨by have := (abs_le.mp h3).1; omega, (abs_le.mp h3).2⟩

/-- The loop of `modPow` on operands of either sign, for a reading exact on
`[-(mod-1)², (mod-1)²]`: with `e < 2^k` and more than `k` units of fuel it
returns the truncated remainder of `result * base^e`. -/
theorem modPowLoop_tmod_spec (W : Int → Int) (mod : Int) (hmod : 0 < mod)
    (hW : ∀ x, -((mod - 1) * (mod - 1)) ≤ x → x ≤ (mod - 1) * (mod - 1) → W x = x)
    (fuel : Nat) :
    ∀ (k e : Nat) (result base : Int), -mod < result → result < mod → -mod < base →
      base < mod → e < 2 ^ k → k < fuel →
      modPowLoop W fuel result base (e : Int) mod = some ((result * base ^ e).tmod mod) := by
  induction fuel with
  | zero => intro k e result base _ _ _ _ _ h; omega
  | succ f ih =>
    intro k e result base hr0 hr hb0 hb he hk
    unfold modPowLoop
    by_cases he0 : e = 0
    · subst he0
      simp [tmod_eq_self_of_abs_lt result mod hr0 hr]
    · have hpos : ((e : Int) > 0) := by
        have : 0 < e := Nat.pos_of_ne_zero he0
        exact_mod_cast this
      rw [if_pos hpos, shiftRight_one_natCast, tmod_two_natCast]
      have hbb := mul_abs_le_sq mod base base hb0 hb hb0 hb
      have hrb := mul_abs_le_sq mod result base hr0 hr hb0 hb
      rw [hW _ hbb.1 hbb.2, hW _ hrb.1 hrb.2]
      have hk1 : 1 ≤ k := by
        rcases k with _ | k
        · simp at he; omega
        · omega
      have he2 : e / 2 < 2 ^ (k - 1) := by
        have : 2 ^ k = 2 * 2 ^ (k - 1) := by
          rw [← pow_succ']
          congr 1
          omega
        omega
      have hb2 : -mod < (base * base).tmod mod ∧ (base * base).tmod mod < mod :=
        ⟨neg_lt_tmod _ _ hmod, Int.tmod_lt_of_pos _ hmod⟩
      have hdecomp : e = 2 * (e / 2) + e % 2 := (Nat.div_add_mod e 2).symm
      rcases Nat.mod_two_eq_zero_or_one e with hpar | hpar
      · rw [hpar]
        simp only [Nat.cast_zero, zero_ne_one, if_false]
        rw [ih (k - 1) (e / 2) result _ hr0 hr hb2.1 hb2.2 he2 (by omega)]
        congr 1
        have hexp : base ^ e = (base * base) ^ (e / 2) := by
          conv_lhs => rw [hdecomp, hpar]
          rw [add_zero, pow_mul, pow_two]
        rw [hexp, ← tmod_mul_tmod_right result (((base * base).tmod mod) ^ (e / 2)) mod hmod,
          tmod_pow_tmod _ _ hmod, tmod_mul_tmod_right _ _ _ hmod]
      · rw [hpar]
        simp only [Nat.cast_one, if_true]
        have hr2 : -mod < (result * base).tmod mod ∧ (result * base).tmod mod < mod :=
          ⟨neg_lt_tmod _ _ hmod, Int.tmod_lt_of_pos _ hmod⟩
        rw [ih (k - 1) (e / 2) _ _ hr2.1 hr2.2 hb2.1 hb2.2 he2 (by omega)]
        congr 1
        have hexp : result * base ^ e = (result * base) * (base * base) ^ (e / 2) := by
          conv_lhs => rw [hdecomp, hpar]
          rw [pow_succ, pow_mul, pow_two]
          ring
        rw [hexp, tmod_mul_tmod_left _ _ _ hmod,
          ← tmod_mul_tmod_right (result * base) (((base * base).tmod mod) ^ (e / 2)) mod hmod,
          tmod_pow_tmod _ _ hmod, tmod_mul_tmod_right _ _ _ hmod]

/-- Source `modPow` on a base of either sign, under a reading exact on
`[-(mod-1)², (mod-1)²]`: the truncated remainder of `base^e`. -/
theorem modPow_tmod_spec (W : Int → Int) (mod : Int) (hmod : 1 < mod)
    (hW : ∀ x, -((mod - 1) * (mod - 1)) ≤ x → x ≤ (mod - 1) * (mod - 1) → W x = x)
    (base : Int) (k e : Nat) (he : e < 2 ^ k) (fuel : Nat) (hk : k < fuel) :
    modPow W fuel base (e : Int) mod = some ((base ^ e).tmod mod) := by
  unfold modPow
  rw [if_neg (by omega)]
  rw [modPowLoop_tmod_spec W mod (by omega) hW fuel k e 1 (base.tmod mod) (by omega) hmod
    (neg_lt_tmod _ _ (by omega)) (Int.tmod_lt_of_pos _ (by omega)) he hk]
  rw [one_mul, tmod_pow_tmod _ _ (by omega)]

theorem wrap64_exact_on_signed_products (mod : Int) (hm : 1 ≤ mod) (hfit : mod ≤ 3037000500) :
    ∀ x, -((mod - 1) * (mod - 1)) ≤ x → x ≤ (mod - 1) * (mod - 1) → wrap64 x = x := by
  intro x h0 hx
  have h1 : (mod - 1) * (mod - 1) ≤ 3037000499 * 3037000499 :=
    mul_le_mul (by omega) (by omega) (by omega) (by norm_num)
  exact wrap64_of_inRange x (by omega) (by omega)

/-! ## C12 and C13: `encryptChar` on symbols outside `[0, n)` -/

/-- Source `modPow` on the 64-bit machine for a non-negative base, a 64-bit
exponent `≥ 0` and `1 < mod ≤ 3037000500`, with 64 units of fuel. -/
theorem modPow_machine_spec (base exp mod : Int) (hbase : 0 ≤ base) (hexp : 0 ≤ exp)
    (hexp64 : exp < 9223372036854775808) (hmod : 1 < mod) (hfit : mod ≤ 3037000500)
    (fuel : Nat) (hfuel : 64 ≤ fuel) :
    modPow wrap64 fuel base exp mod = some (base ^ exp.toNat % mod) := by
  obtain ⟨e, rfl⟩ := Int.eq_ofNat_of_zero_le hexp
  have he : e < 2 ^ 63 := by
    have : (e : Int) < ((2 ^ 63 : Nat) : Int) := by
      simpa using hexp64
    exact_mod_cast this
  simpa using modPow_spec wrap64 mod hmod (wrap64_exact_on_products mod (by omega) hfit) base
    hbase 63 e he fuel (by omega)

/-- C12 as stated fails: with the key `setKeys(35, 5, 5)` the symbol `'A'`
(code `65 ≥ 35`) is encrypted without any error to the cipher unit `25`, the
unit of the symbol with code `65 mod 35 = 30`. -/
theorem encryptChar_no_overflow_error_counterexample :
    (setKeys 35 5 5).n ≤ ofCChar (toCChar 65) ∧
      ∀ fuel, 4 ≤ fuel →
        encryptChar wrap64 fuel (setKeys 35 5 5) (toCChar 65) = some 25 ∧
        encryptChar wrap64 fuel (setKeys 35 5 5) (toCChar 30) = some 25 := by
  refine ⟨by decide, fun fuel hf => ⟨?_, ?_⟩⟩
  · exact encryptChar_mono wrap64 4 fuel hf _ _ _ (by decide)
  · exact encryptChar_mono wrap64 4 fuel hf _ _ _ (by decide)

/-- C12 (amended): for a key with modulus `n > 1` and exponent
`0 ≤ e < 2^63`, a symbol whose code is `≥ n` raises no error: `encryptChar`
returns the cipher unit `(code mod n)^e mod n`, a value in `[0, n)`, which is
the unit `modPow` computes for the reduced code `code mod n`. -/
theorem encryptChar_wraps_symbol_above_modulus (key : Key) (c : CChar) (hn : 1 < key.n)
    (hc : key.n ≤ ofCChar c) (he : 0 ≤ key.e) (he64 : key.e < 9223372036854775808)
    (fuel : Nat) (hfuel : 64 ≤ fuel) :
    encryptChar wrap64 fuel key c = some ((ofCChar c % key.n) ^ key.e.toNat % key.n) ∧
      0 ≤ (ofCChar c % key.n) ^ key.e.toNat % key.n ∧
      (ofCChar c % key.n) ^ key.e.toNat % key.n < key.n ∧
      encryptChar wrap64 fuel key c = modPow wrap64 fuel (ofCChar c % key.n) key.e key.n := by
  have hc127 : ofCChar c ≤ 127 := c.property.2
  have hfit : key.n ≤ 3037000500 := by omega
  have h1 := modPow_machine_spec (ofCChar c) key.e key.n (by omega) he he64 hn hfit fuel hfuel
  have h2 := modPow_machine_spec (ofCChar c % key.n) key.e key.n
    (Int.emod_nonneg _ (by omega)) he he64 hn hfit fuel hfuel
  have h3 : (ofCChar c % key.n) ^ key.e.toNat % key.n = ofCChar c ^ key.e.toNat % key.n :=
    (Int.mod_modEq _ _).pow _
  refine ⟨?_, Int.emod_nonneg _ (by omega), Int.emod_lt_of_pos _ (by omega), ?_⟩
  · unfold encryptChar
    rw [h1, h3]
  · unfold encryptChar
    rw [h1, h2, h3]

theorem encryptChar_wraps_symbol_above_modulus_witness :
    (1 : Int) < (setKeys 35 5 5).n ∧ (setKeys 35 5 5).n ≤ ofCChar (toCChar 65) ∧
      0 ≤ (setKeys 35 5 5).e ∧ (setKeys 35 5 5).e < 9223372036854775808 ∧ 64 ≤ 64 ∧
      (encryptChar wrap64 64 (setKeys 35 5 5) (toCChar 65)
          = some ((ofCChar (toCChar 65) % (setKeys 35 5 5).n) ^ (setKeys 35 5 5).e.toNat
              % (setKeys 35 5 5).n) ∧
        0 ≤ (ofCChar (toCChar 65) % (setKeys 35 5 5).n) ^ (setKeys 35 5 5).e.toNat
              % (setKeys 35 5 5).n ∧
        (ofCChar (toCChar 65) % (setKeys 35 5 5).n) ^ (setKeys 35 5 5).e.toNat
              % (setKeys 35 5 5).n < (setKeys 35 5 5).n ∧
        encryptChar wrap64 64 (setKeys 35 5 5) (toCChar 65)
          = modPow wrap64 64 (ofCChar (toCChar 65) % (setKeys 35 5 5).n) (setKeys 35 5 5).e
              (setKeys 35 5 5).n) :=
  ⟨by decide, by decide, by decide, by decide, by decide,
    encryptChar_wraps_symbol_above_modulus (setKeys 35 5 5) (toCChar 65) (by decide)
      (by decide) (by decide) (by decide) 64 (by decide)⟩

/-- C13 as stated fails in two ways.  A symbol with a negative code keeps its
sign through the truncating `%`: with the key `setKeys(35, 5, 5)` the symbol
with code `-1` is encrypted to `-1`.  And for a modulus above `3037000500` the
products of `modPow` overflow: with `n = 2^63 - 1`, `e = 11` the symbol with
code `127` is encrypted to `-2482373606301874817`. -/
theorem encryptChar_unit_range_counterexample :
    ((1 : Int) < (setKeys 35 5 5).n ∧ 0 ≤ (setKeys 35 5 5).e ∧
        ∀ fuel, 4 ≤ fuel →
          encryptChar wrap64 fuel (setKeys 35 5 5) (toCChar (-1)) = some (-1)) ∧
      ((1 : Int) < (setKeys 9223372036854775807 11 5).n ∧
        0 ≤ (setKeys 9223372036854775807 11 5).e ∧
        ∀ fuel, 5 ≤ fuel →
          encryptChar wrap64 fuel (setKeys 9223372036854775807 11 5) (toCChar 127)
            = some (-2482373606301874817)) := by
  refine ⟨⟨by decide, by decide, fun fuel hf => ?_⟩, ⟨by decide, by decide, fun fuel hf => ?_⟩⟩
  · exact encryptChar_mono wrap64 4 fuel hf _ _ _ (by decide)
  · exact encryptChar_mono wrap64 5 fuel hf _ _ _ (by decide)

/-- C13 (amended): for a key with modulus `1 < n ≤ 3037000500` and public
exponent `0 ≤ e < 2^63`, and for every plaintext symbol whose code is
non-negative, the cipher unit `encryptChar` returns is an integer `c` with
`0 ≤ c < n`. -/
theorem encryptChar_unit_in_range (key : Key) (c : CChar) (hn : 1 < key.n)
    (hfit : key.n ≤ 3037000500) (he : 0 ≤ key.e) (he64 : key.e < 9223372036854775808)
    (hc : 0 ≤ ofCChar c) (fuel : Nat) (hfuel : 64 ≤ fuel) :
    ∃ u, encryptChar wrap64 fuel key c = some u ∧ 0 ≤ u ∧ u < key.n := by
  exact ⟨_, modPow_machine_spec (ofCChar c) key.e key.n hc he he64 hn hfit fuel hfuel,
    Int.emod_nonneg _ (by omega), Int.emod_lt_of_pos _ (by omega)⟩

theorem encryptChar_unit_in_range_witness :
    (1 : Int) < (setKeys 11413 65537 7873).n ∧ (setKeys 11413 65537 7873).n ≤ 3037000500 ∧
      0 ≤ (setKeys 11413 65537 7873).e ∧
      (setKeys 11413 65537 7873).e < 9223372036854775808 ∧ 0 ≤ ofCChar (toCChar 72) ∧
      64 ≤ 64 ∧
      ∃ u, encryptChar wrap64 64 (setKeys 11413 65537 7873) (toCChar 72) = some u ∧ 0 ≤ u ∧
        u < (setKeys 11413 65537 7873).n :=
  ⟨by decide, by decide, by decide, by decide, by decide, by decide,
    encryptChar_unit_in_range (setKeys 11413 65537 7873) (toCChar 72) (by decide) (by decide)
      (by decide) (by decide) (by decide) 64 (by decide)⟩

/-! ## C14: the sign of what `gcd` returns -/

/-- C14 as stated fails: the loop takes no absolute value and `%` keeps the
sign of the dividend, so `gcd(-4, 0)` returns `-4`, `gcd(4, -2)` returns `-2`
and `gcd(-3, 2)` returns `-1`. -/
theorem gcd_negative_counterexample :
    gcd 1 (-4) 0 = some (-4) ∧ gcd 2 4 (-2) = some (-2) ∧ gcd 3 (-3) 2 = some (-1) ∧
      ∀ fuel, 3 ≤ fuel →
        gcd fuel (-4) 0 = some (-4) ∧ gcd fuel 4 (-2) = some (-2) ∧
          gcd fuel (-3) 2 = some (-1) := by
  refine ⟨by decide, by decide, by decide, fun fuel hf => ?_⟩
  exact ⟨gcd_mono 3 _ _ _ fuel hf (by decide), gcd_mono 3 _ _ _ fuel hf (by decide),
    gcd_mono 3 _ _ _ fuel hf (by decide)⟩

/-- C14 (amended): for every pair of integers `a ≥ 0` and `b ≥ 0`, the value
`gcd(a, b)` returns is non-negative. -/
theorem gcd_nonneg_of_nonneg (a b : Int) (ha : 0 ≤ a) (hb : 0 ≤ b) (fuel : Nat)
    (hfuel : b.toNat < fuel) : ∃ g, gcd fuel a b = some g ∧ 0 ≤ g :=
  ⟨_, gcd_loop_nonneg fuel a b ha hb hfuel, Int.ofNat_nonneg _⟩

theorem gcd_nonneg_of_nonneg_witness :
    (0 : Int) ≤ 65537 ∧ (0 : Int) ≤ 11200 ∧ (11200 : Int).toNat < 11201 ∧
      ∃ g, gcd 11201 65537 11200 = some g ∧ 0 ≤ g :=
  ⟨by decide, by decide, by decide,
    gcd_nonneg_of_nonneg 65537 11200 (by decide) (by decide) 11201 (by decide)⟩

/-! ## C15 and C20: `generatePrime` -/

/-- Whatever the fuel, a `true` of `isPrime` on the 64-bit machine means that
the number is prime. -/
theorem isPrime_sound (fuel : Nat) (n : Int) (hhi : n < 9223372036854775808)
    (h : isPrime wrap64 fuel n = some true) : Nat.Prime n.toNat := by
  have h1 := isPrime_mono wrap64 fuel (max fuel 4611686018427387904) (le_max_left _ _) n true h
  rw [isPrime_spec n hhi _ (le_max_right _ _)] at h1
  simpa using h1

/-- Whatever the fuel, a `false` of `isPrime` on the 64-bit machine means that
the number is not prime. -/
theorem isPrime_false_sound (fuel : Nat) (n : Int) (hhi : n < 9223372036854775808)
    (h : isPrime wrap64 fuel n = some false) : ¬ Nat.Prime n.toNat := by
  have h1 := isPrime_mono wrap64 fuel (max fuel 4611686018427387904) (le_max_left _ _) n false h
  rw [isPrime_spec n hhi _ (le_max_right _ _)] at h1
  simpa using h1

/-- The rejection loop of `generatePrime`: it returns `(p, rest)` exactly when
the draws split into rejected draws, one accepted draw `c` with candidate `p`,
and the unread `rest`. -/
theorem generatePrime_iff (W : Int → Int) (fuel : Nat) (min max : Int) (draws : List Int) :
    ∀ (p : Int) (rest : List Int),
      generatePrime W fuel min max draws = some (p, rest) ↔
        ∃ (pre : List Int) (c : Int), draws = pre ++ c :: rest ∧
          (∀ c1 ∈ pre, (min ≤ c1 ∧ c1 ≤ max) ∧
            isPrime W fuel (if c1.tmod 2 = 0 then W (c1 + 1) else c1) = some false) ∧
          (min ≤ c ∧ c ≤ max) ∧ p = (if c.tmod 2 = 0 then W (c + 1) else c) ∧
          isPrime W fuel p = some true := by
  induction draws with
  | nil =>
    intro p rest
    simp [generatePrime]
  | cons d ds ih =>
    intro p rest
    unfold generatePrime
    by_cases hr : d < min ∨ max < d
    · rw [if_pos hr]
      constructor
      · intro h
        cases h
      · rintro ⟨pre, c, hsplit, hpre, hc, _, _⟩
        rcases pre with _ | ⟨a, pre⟩
        · simp only [List.nil_append, List.cons.injEq] at hsplit
          obtain ⟨rfl, _⟩ := hsplit
          omega
        · simp only [List.cons_append, List.cons.injEq] at hsplit
          obtain ⟨rfl, _⟩ := hsplit
          have := (hpre d (List.mem_cons_self _ _)).1
          omega
    · rw [if_neg hr]
      dsimp only
      have hin : min ≤ d ∧ d ≤ max := by omega
      cases hres : isPrime W fuel (if d.tmod 2 = 0 then W (d + 1) else d) with
      | none =>
        constructor
        · intro h
          cases h
        · rintro ⟨pre, c, hsplit, hpre, _, hp, hacc⟩
          rcases pre with _ | ⟨a, pre⟩
          · simp only [List.nil_append, List.cons.injEq] at hsplit
            obtain ⟨rfl, _⟩ := hsplit
            rw [hp, hres] at hacc
            cases hacc
          · simp only [List.cons_append, List.cons.injEq] at hsplit
            obtain ⟨rfl, _⟩ := hsplit
            have := (hpre d (List.mem_cons_self _ _)).2
            rw [hres] at this
            cases this
      | some b =>
        cases b with
        | true =>
          dsimp only
          constructor
          · intro h
            simp only [Option.some.injEq, Prod.mk.injEq] at h
            obtain ⟨rfl, rfl⟩ := h
            exact ⟨[], d, rfl, by simp, hin, rfl, hres⟩
          · rintro ⟨pre, c, hsplit, hpre, _, hp, hacc⟩
            rcases pre with _ | ⟨a, pre⟩
            · simp only [List.nil_append, List.cons.injEq] at hsplit
              obtain ⟨rfl, rfl⟩ := hsplit
              rw [hp]
            · simp only [List.cons_append, List.cons.injEq] at hsplit
              obtain ⟨rfl, _⟩ := hsplit
              have := (hpre d (List.mem_cons_self _ _)).2
              rw [hres] at this
              cases this
        | false =>
          dsimp only
          rw [ih p rest]
          constructor
          · rintro ⟨pre, c, hsplit, hpre, hc, hp, hacc⟩
            refine ⟨d :: pre, c, by simp [hsplit], ?_, hc, hp, hacc⟩
            intro c1 hc1
            rcases List.mem_cons.mp hc1 with h | h
            · subst h
              exact ⟨hin, hres⟩
            · exact hpre c1 h
          · rintro ⟨pre, c, hsplit, hpre, hc, hp, hacc⟩
            rcases pre with _ | ⟨a, pre⟩
            · simp only [List.nil_append, List.cons.injEq] at hsplit
              obtain ⟨rfl, _⟩ := hsplit
              rw [hp, hres] at hacc
              cases hacc
            · simp only [List.cons_append, List.cons.injEq] at hsplit
              obtain ⟨rfl, rfl⟩ := hsplit
              exact ⟨pre, c, rfl, fun c1 hc1 => hpre c1 (List.mem_cons_of_mem _ hc1), hc, hp,
                hacc⟩

theorem tmod_two_eq_zero_iff (c : Int) : c.tmod 2 = 0 ↔ c % 2 = 0 := by
  rw [← Int.dvd_iff_tmod_eq_zero, Int.dvd_iff_emod_eq_zero]

/-- The candidate formed from a 64-bit draw `c`: `c + 1` when `c` is even
(the increment cannot wrap, an even `c` is below `2^63 - 1`), else `c`. -/
theorem candidate_eq (c : Int) (hlo : -9223372036854775808 ≤ c)
    (hhi : c < 9223372036854775808) :
    (if c.tmod 2 = 0 then wrap64 (c + 1) else c) = (if c % 2 = 0 then c + 1 else c) := by
  by_cases h : c % 2 = 0
  · rw [if_pos ((tmod_two_eq_zero_iff c).mpr h), if_pos h]
    exact wrap64_of_inRange _ (by omega) (by omega)
  · rw [if_neg (fun h1 => h ((tmod_two_eq_zero_iff c).mp h1)), if_neg h]

theorem candidate_bounds (c : Int) :
    c ≤ (if c % 2 = 0 then c + 1 else c) ∧ (if c % 2 = 0 then c + 1 else c) ≤ c + 1 ∧
      (if c % 2 = 0 then c + 1 else c) % 2 = 1 := by
  by_cases h : c % 2 = 0
  · rw [if_pos h]
    omega
  · rw [if_neg h]
    omega

theorem candidate_lt (c : Int) (hhi : c < 9223372036854775808) :
    (if c % 2 = 0 then c + 1 else c) < 9223372036854775808 := by
  by_cases h : c % 2 = 0
  · rw [if_pos h]
    omega
  · rw [if_neg h]
    exact hhi

/-- With `2^62` units of fuel `generatePrime` returns as soon as one of the
draws has a prime candidate. -/
theorem generatePrime_returns (fuel : Nat) (hfuel : 4611686018427387904 ≤ fuel)
    (min max : Int) (hmin : -9223372036854775808 ≤ min) (hmax : max < 9223372036854775808)
    (draws : List Int) :
    (∀ c ∈ draws, min ≤ c ∧ c ≤ max) →
      (∃ c ∈ draws, Nat.Prime (if c % 2 = 0 then c + 1 else c).toNat) →
      ∃ p rest, generatePrime wrap64 fuel min max draws = some (p, rest) := by
  induction draws with
  | nil =>
    rintro _ ⟨c, hc, _⟩
    cases hc
  | cons d ds ih =>
    intro hrange hex
    have hd := hrange d (List.mem_cons_self _ _)
    unfold generatePrime
    rw [if_neg (by omega)]
    dsimp only
    rw [candidate_eq d (by omega) (by omega),
      isPrime_spec _ (candidate_lt d (by omega)) fuel hfuel]
    by_cases hp : Nat.Prime (if d % 2 = 0 then d + 1 else d).toNat
    · simp only [hp, decide_True]
      exact ⟨_, _, rfl⟩
    · simp only [hp, decide_False]
      apply ih (fun c hc => hrange c (List.mem_cons_of_mem _ hc))
      obtain ⟨c, hc, hcp⟩ := hex
      rcases List.mem_cons.mp hc with h | h
      · subst h
        exact absurd hcp hp
      · exact ⟨c, h, hcp⟩

/-- C15: for every 64-bit range `[min, max]` and every sequence of draws, any
value `generatePrime(min, max)` returns is an odd prime: the draws split into
rejected draws, on whose candidates `isPrime` returned `false`, and an
accepted draw `c` in `[min, max]` whose candidate (`c`, or `c + 1` when `c` is
even) is the value returned and on which `isPrime` returned `true`.  With
`2^62` units of fuel a value is returned as soon as some draw has a prime
candidate. -/
theorem generatePrime_returns_odd_prime (fuel : Nat) (min max : Int)
    (hmin : -9223372036854775808 ≤ min) (hmax : max < 9223372036854775808)
    (draws : List Int) :
    (∀ (p : Int) (rest : List Int), generatePrime wrap64 fuel min max draws = some (p, rest) →
        Nat.Prime p.toNat ∧ p % 2 = 1 ∧
          ∃ (pre : List Int) (c : Int), draws = pre ++ c :: rest ∧ min ≤ c ∧ c ≤ max ∧
            p = (if c % 2 = 0 then c + 1 else c) ∧ isPrime wrap64 fuel p = some true ∧
            ∀ c1 ∈ pre, isPrime wrap64 fuel (if c1 % 2 = 0 then c1 + 1 else c1) = some false ∧
              ¬ Nat.Prime (if c1 % 2 = 0 then c1 + 1 else c1).toNat) ∧
      (4611686018427387904 ≤ fuel → (∀ c ∈ draws, min ≤ c ∧ c ≤ max) →
        (∃ c ∈ draws, Nat.Prime (if c % 2 = 0 then c + 1 else c).toNat) →
        ∃ p rest, generatePrime wrap64 fuel min max draws = some (p, rest)) := by
  refine ⟨fun p rest h => ?_, fun hfuel hrange hex =>
    generatePrime_returns fuel hfuel min max hmin hmax draws hrange hex⟩
  obtain ⟨pre, c, hsplit, hpre, hc, hp, hacc⟩ :=
    (generatePrime_iff wrap64 fuel min max draws p rest).mp h
  rw [candidate_eq c (by omega) (by omega)] at hp
  have hplt : p < 9223372036854775808 := by
    rw [hp]
    exact candidate_lt c (by omega)
  refine ⟨isPrime_sound fuel p hplt hacc, ?_, pre, c, hsplit, hc.1, hc.2, hp, hacc, ?_⟩
  · rw [hp]
    exact (candidate_bounds c).2.2
  · intro c1 hc1
    obtain ⟨hr1, hf1⟩ := hpre c1 hc1
    rw [candidate_eq c1 (by omega) (by omega)] at hf1
    exact ⟨hf1, isPrime_false_sound fuel _ (candidate_lt c1 (by omega)) hf1⟩

theorem generatePrime_returns_odd_prime_witness :
    (-9223372036854775808 : Int) ≤ 100 ∧ (500 : Int) < 9223372036854775808 ∧
      generatePrime wrap64 11 100 500 [120, 225, 256, 300] = some (257, [300]) ∧
      Nat.Prime (257 : Int).toNat ∧ (257 : Int) % 2 = 1 :=
  ⟨by decide, by decide, by decide,
    ((generatePrime_returns_odd_prime 11 100 500 (by decide) (by decide)
      [120, 225, 256, 300]).1 257 [300] (by decide)).1,
    ((generatePrime_returns_odd_prime 11 100 500 (by decide) (by decide)
      [120, 225, 256, 300]).1 257 [300] (by decide)).2.1⟩

/-- `isPrime` never answers `true` on `501 = 3 * 167`. -/
theorem isPrime_501 (fuel : Nat) : isPrime wrap64 fuel 501 ≠ some true := by
  intro h
  have h1 := isPrime_sound fuel 501 (by norm_num) h
  have h2 : ¬ Nat.Prime 501 := by norm_num
  exact h2 h1

/-- C20: every value `generatePrime(min, max)` returns lies in
`[min, max + 1]`; the bound `max + 1` is attained: with `min = 100`,
`max = 502` and the draw `502` the value returned is `503`, outside
`[100, 502]`; and for the program's own range `(100, 500)` every value
returned lies in `[101, 499]`. -/
theorem generatePrime_range (fuel : Nat) (min max : Int)
    (hmin : -9223372036854775808 ≤ min) (hmax : max < 9223372036854775808)
    (draws : List Int) (p : Int) (rest : List Int)
    (h : generatePrime wrap64 fuel min max draws = some (p, rest)) :
    (min ≤ p ∧ p ≤ max + 1) ∧
      (∀ f, 11 ≤ f → generatePrime wrap64 f 100 502 [502] = some (503, [])) ∧
      ¬ ((503 : Int) ≤ 502) ∧
      (∀ (f : Nat) (ds : List Int) (p1 : Int) (rest1 : List Int),
        generatePrime wrap64 f 100 500 ds = some (p1, rest1) → 101 ≤ p1 ∧ p1 ≤ 499) := by
  have hgen : ∀ (f : Nat) (lo hi : Int), -9223372036854775808 ≤ lo →
      hi < 9223372036854775808 → ∀ (ds : List Int) (p1 : Int) (rest1 : List Int),
      generatePrime wrap64 f lo hi ds = some (p1, rest1) →
      lo ≤ p1 ∧ p1 ≤ hi + 1 ∧ p1 % 2 = 1 ∧ isPrime wrap64 f p1 = some true := by
    intro f lo hi hlo hhi ds p1 rest1 h1
    obtain ⟨pre, c, _, _, hc, hp, hacc⟩ := (generatePrime_iff wrap64 f lo hi ds p1 rest1).mp h1
    rw [candidate_eq c (by omega) (by omega)] at hp
    have hb := candidate_bounds c
    rw [← hp] at hb
    exact ⟨by omega, by omega, hb.2.2, hacc⟩
  refine ⟨?_, ?_, by decide, ?_⟩
  · have := hgen fuel min max hmin hmax draws p rest h
    exact ⟨this.1, this.2.1⟩
  · intro f hf
    have h0 : generatePrime wrap64 11 100 502 [502] = some (503, []) := by decide
    apply (generatePrime_iff wrap64 f 100 502 [502] 503 []).mpr
    obtain ⟨pre, c, hsplit, hpre, hc, hp, hacc⟩ :=
      (generatePrime_iff wrap64 11 100 502 [502] 503 []).mp h0
    refine ⟨pre, c, hsplit, ?_, hc, hp, isPrime_mono wrap64 11 f hf _ _ hacc⟩
    intro c1 hc1
    exact ⟨(hpre c1 hc1).1, isPrime_mono wrap64 11 f hf _ _ (hpre c1 hc1).2⟩
  · intro f ds p1 rest1 h1
    obtain ⟨hlo, hhi, hodd, hacc⟩ := hgen f 100 500 (by norm_num) (by norm_num) ds p1 rest1 h1
    have hne : p1 ≠ 501 := by
      intro h501
      rw [h501] at hacc
      exact isPrime_501 f hacc
    omega

theorem generatePrime_range_witness :
    (-9223372036854775808 : Int) ≤ 100 ∧ (502 : Int) < 9223372036854775808 ∧
      generatePrime wrap64 11 100 502 [502] = some (503, []) ∧
      ((100 : Int) ≤ 503 ∧ (503 : Int) ≤ 502 + 1) ∧
      (∀ f, 11 ≤ f → generatePrime wrap64 f 100 502 [502] = some (503, [])) ∧
      ¬ ((503 : Int) ≤ 502) ∧
      (∀ (f : Nat) (ds : List Int) (p1 : Int) (rest1 : List Int),
        generatePrime wrap64 f 100 500 ds = some (p1, rest1) → 101 ≤ p1 ∧ p1 ≤ 499) :=
  ⟨by decide, by decide, by decide,
    generatePrime_range 11 100 502 (by decide) (by decide) [502] 503 [] (by decide)⟩

/-! ## C17: no product of `modPow` overflows for `mod ≤ 3·10^9` -/

theorem mul_abs_le_of_le (m a b : Int) (hm : m ≤ 3000000000) (ha1 : -m ≤ a) (ha2 : a ≤ m)
    (hb1 : -m ≤ b) (hb2 : b ≤ m) :
    -9223372036854775808 ≤ a * b ∧ a * b < 9223372036854775808 := by
  have h1 : |a| ≤ m := abs_le.mpr ⟨ha1, ha2⟩
  have h2 : |b| ≤ m := abs_le.mpr ⟨hb1, hb2⟩
  have hm0 : 0 ≤ m := le_trans (abs_nonneg a) h1
  have h3 : |a * b| ≤ m * m := by
    rw [abs_mul]
    exact mul_le_mul h1 h2 (abs_nonneg b) hm0
  have h4 : m * m ≤ 3000000000 * 3000000000 := mul_le_mul hm hm hm0 (by norm_num)
  have h5 := abs_le.mp h3
  constructor
  · linarith [h5.1]
  · linarith [h5.2]

/-- The loop of `modPow` for `1 ≤ mod ≤ 3·10^9`, entered with `|result| ≤ mod`
and `|base| ≤ mod`: the machine run and the exact run agree, and every
product the machine run forms is within the signed 64-bit range. -/
theorem modPowLoop_products_fit (mod : Int) (hmod1 : 1 ≤ mod) (hmod : mod ≤ 3000000000)
    (fuel : Nat) :
    ∀ result base exp : Int, -mod ≤ result → result ≤ mod → -mod ≤ base → base ≤ mod →
      modPowLoop wrap64 fuel result base exp mod = modPowLoop exact fuel result base exp mod ∧
        ∀ x ∈ modPowLoopProducts wrap64 fuel result base exp mod,
          -9223372036854775808 ≤ x ∧ x < 9223372036854775808 := by
  induction fuel with
  | zero =>
    intro result base exp _ _ _ _
    simp [modPowLoop, modPowLoopProducts]
  | succ f ih =>
    intro result base exp hr1 hr2 hb1 hb2
    have hrb := mul_abs_le_of_le mod result base hmod hr1 hr2 hb1 hb2
    have hbb := mul_abs_le_of_le mod base base hmod hb1 hb2 hb1 hb2
    have hWrb : wrap64 (result * base) = result * base := wrap64_of_inRange _ hrb.1 hrb.2
    have hWbb : wrap64 (base * base) = base * base := wrap64_of_inRange _ hbb.1 hbb.2
    have hnb1 : -mod ≤ (base * base).tmod mod := le_of_lt (neg_lt_tmod _ _ (by omega))
    have hnb2 : (base * base).tmod mod ≤ mod := le_of_lt (Int.tmod_lt_of_pos _ (by omega))
    have hnr1 : -mod ≤ (result * base).tmod mod := le_of_lt (neg_lt_tmod _ _ (by omega))
    have hnr2 : (result * base).tmod mod ≤ mod := le_of_lt (Int.tmod_lt_of_pos _ (by omega))
    unfold modPowLoop modPowLoopProducts
    by_cases hexp : exp > 0
    · rw [if_pos hexp, if_pos hexp, if_pos hexp, hWrb, hWbb]
      simp only [exact]
      by_cases hodd : exp.tmod 2 = 1
      · simp only [hodd, if_true]
        obtain ⟨h1, h2⟩ := ih ((result * base).tmod mod) ((base * base).tmod mod)
          (exp >>> (1 : Nat)) hnr1 hnr2 hnb1 hnb2
        refine ⟨h1, ?_⟩
        intro x hx
        simp only [List.mem_append, List.mem_cons, List.mem_singleton, List.not_mem_nil,
          or_false] at hx
        rcases hx with (hx | hx) | hx
        · rw [hx]; exact hrb
        · rw [hx]; exact hbb
        · exact h2 x hx
      · simp only [hodd, if_false]
        obtain ⟨h1, h2⟩ := ih result ((base * base).tmod mod) (exp >>> (1 : Nat)) hr1 hr2
          hnb1 hnb2
        refine ⟨h1, ?_⟩
        intro x hx
        simp only [List.mem_append, List.mem_cons, List.mem_singleton, List.not_mem_nil,
          or_false, false_or] at hx
        rcases hx with hx | hx
        · rw [hx]; exact hbb
        · exact h2 x hx
    · rw [if_neg hexp, if_neg hexp, if_neg hexp]
      simp

/-- C17: for every modulus `1 ≤ mod ≤ 3·10^9` (and every modulus `p*q` of
primes in `[100, 500]` is one), every 64-bit `base` and every 64-bit
`exp ≥ 0`, each product `result * base` and `base * base` that `modPow` forms
on the machine lies within the signed 64-bit range, and the machine run
returns the same value as the run in exact arithmetic. -/
theorem modPow_products_fit (base exp mod : Int) (hmod1 : 1 ≤ mod) (hmod : mod ≤ 3000000000)
    (_hbase_lo : -9223372036854775808 ≤ base) (_hbase_hi : base < 9223372036854775808)
    (_hexp : 0 ≤ exp) (hexp64 : exp < 9223372036854775808) (fuel : Nat) (hfuel : 64 ≤ fuel) :
    (∀ x ∈ modPowProducts wrap64 fuel base exp mod,
        -9223372036854775808 ≤ x ∧ x < 9223372036854775808) ∧
      (∃ v, modPow wrap64 fuel base exp mod = some v ∧
        modPow exact fuel base exp mod = some v) ∧
      (∀ p q : Int, 100 ≤ p → p ≤ 500 → 100 ≤ q → q ≤ 500 →
        1 ≤ p * q ∧ p * q ≤ 3000000000) := by
  have hm0 : mod ≠ 0 := by omega
  have hb1 : -mod ≤ base.tmod mod := le_of_lt (neg_lt_tmod _ _ (by omega))
  have hb2 : base.tmod mod ≤ mod := le_of_lt (Int.tmod_lt_of_pos _ (by omega))
  obtain ⟨heq, hfit⟩ := modPowLoop_products_fit mod hmod1 hmod fuel 1 (base.tmod mod) exp
    (by omega) (by omega) hb1 hb2
  refine ⟨?_, ?_, ?_⟩
  · unfold modPowProducts
    rw [if_neg hm0]
    exact hfit
  · obtain ⟨v, hv⟩ := modPowLoop_returns wrap64 mod fuel 63 1 (base.tmod mod) exp
      (by norm_num; omega) (by omega)
    refine ⟨v, ?_, ?_⟩
    · unfold modPow
      rw [if_neg hm0]
      exact hv
    · unfold modPow
      rw [if_neg hm0, ← heq]
      exact hv
  · intro p q hp1 hp2 hq1 hq2
    have h1 : 100 * 100 ≤ p * q := mul_le_mul hp1 hq1 (by norm_num) (by omega)
    have h2 : p * q ≤ 500 * 500 := mul_le_mul hp2 hq2 (by omega) (by norm_num)
    omega

theorem modPow_products_fit_witness :
    (1 : Int) ≤ 11413 ∧ (11413 : Int) ≤ 3000000000 ∧
      (-9223372036854775808 : Int) ≤ -56 ∧ (-56 : Int) < 9223372036854775808 ∧
      (0 : Int) ≤ 65537 ∧ (65537 : Int) < 9223372036854775808 ∧ 64 ≤ 64 ∧
      ((∀ x ∈ modPowProducts wrap64 64 (-56) 65537 11413,
          -9223372036854775808 ≤ x ∧ x < 9223372036854775808) ∧
        (∃ v, modPow wrap64 64 (-56) 65537 11413 = some v ∧
          modPow exact 64 (-56) 65537 11413 = some v) ∧
        (∀ p q : Int, 100 ≤ p → p ≤ 500 → 100 ≤ q → q ≤ 500 →
          1 ≤ p * q ∧ p * q ≤ 3000000000)) :=
  ⟨by decide, by decide, by decide, by decide, by decide, by decide, by decide,
    modPow_products_fit (-56) 65537 11413 (by decide) (by decide) (by decide) (by decide)
      (by decide) (by decide) 64 (by decide)⟩

/-! ## C18: round trip over the full `char` range -/

/-- When `c^E ≡ c` modulo `n` for every `c`, `E` is odd and `|c| < n`, the
truncated remainder of `c^E` is `c` itself, sign included. -/
theorem tmod_pow_eq_self (n : Int) (E : Nat) (hodd : E % 2 = 1)
    (hcore : ∀ m : Int, m ^ E ≡ m [ZMOD n]) (c : Int) (hlo : -n < c) (hhi : c < n) :
    (c ^ E).tmod n = c := by
  have hn : 0 < n := by omega
  rcases le_or_lt 0 c with hc | hc
  · rw [Int.tmod_eq_emod (pow_nonneg hc E) hn.le, hcore c]
    exact Int.emod_eq_of_lt hc hhi
  · have hE : Odd E := Nat.odd_iff.mpr hodd
    have h1 : c ^ E = -((-c) ^ E) := by
      rw [Odd.neg_pow hE, neg_neg]
    have h2 : 0 ≤ (-c) ^ E := pow_nonneg (by omega) E
    rw [h1, neg_tmod_eq, Int.tmod_eq_emod h2 hn.le, hcore (-c),
      Int.emod_eq_of_lt (by omega) (by omega), neg_neg]

/-- Round trip of a string of signed characters on the 64-bit machine, for a
key `(n, e, d)` with `128 < n ≤ 3037000500`, `e*d` odd and `c^(e*d) ≡ c`
modulo `n`. -/
theorem roundtrip_signed_chars (n : Int) (e d k : Nat) (hn_lo : 128 < n)
    (hfit : n ≤ 3037000500) (he : e < 2 ^ k) (hd : d < 2 ^ k) (hodd : (e * d) % 2 = 1)
    (hcore : ∀ m : Int, m ^ (e * d) ≡ m [ZMOD n]) (fuel : Nat) (hfuel : k < fuel)
    (s : List CChar) :
    ∃ encrypted : List Int, encrypt wrap64 fuel ⟨n, (e : Int), (d : Int)⟩ s = some encrypted ∧
      decrypt wrap64 fuel ⟨n, (e : Int), (d : Int)⟩ encrypted = some s := by
  have hn1 : 1 < n := by omega
  have hn0 : 0 < n := by omega
  have hW := wrap64_exact_on_signed_products n (by omega) hfit
  have henc : ∀ c ∈ s, encryptChar wrap64 fuel ⟨n, (e : Int), (d : Int)⟩ c
      = some ((ofCChar c ^ e).tmod n) := by
    intro c _
    exact modPow_tmod_spec wrap64 n hn1 hW (ofCChar c) k e he fuel hfuel
  have hdec : ∀ u ∈ s.map (fun c => (ofCChar c ^ e).tmod n),
      decryptChar wrap64 fuel ⟨n, (e : Int), (d : Int)⟩ u = some (toCChar ((u ^ d).tmod n)) := by
    intro u _
    unfold decryptChar
    dsimp only
    rw [modPow_tmod_spec wrap64 n hn1 hW u k d hd fuel hfuel]
  have hround : ∀ c ∈ s, toCChar ((((ofCChar c ^ e).tmod n) ^ d).tmod n) = c := by
    intro c _
    have hc := c.property
    have hc1 : -n < ofCChar c := by unfold ofCChar; omega
    have hc2 : ofCChar c < n := by unfold ofCChar; omega
    rw [tmod_pow_tmod _ _ hn0, ← pow_mul,
      tmod_pow_eq_self n (e * d) hodd hcore (ofCChar c) hc1 hc2, toCChar_ofCChar]
  refine ⟨s.map (fun c => (ofCChar c ^ e).tmod n), ?_, ?_⟩
  · unfold encrypt
    rw [encryptLoop_map wrap64 fuel _ _ s [] henc]
    simp
  · unfold decrypt
    rw [decryptLoop_map wrap64 fuel _ (fun u => toCChar ((u ^ d).tmod n)) _ [] hdec]
    simp only [List.nil_append, List.map_map, Option.some.injEq]
    conv_rhs => rw [← List.map_id s]
    apply List.map_congr_left
    intro c hc
    exact hround c hc

/-- For primes `P ≠ Q` in `[100, 500]` and `D` below the totient with
`65537 * D ≡ 1` modulo the totient: the product `65537 * D` is odd and is an
RSA exponent for `P * Q`. -/
theorem generated_exponent_facts (P Q D : Nat) (hp : Nat.Prime P) (hq : Nat.Prime Q)
    (hP : 100 ≤ P) (hPQ : P ≠ Q)
    (hE : (65537 * D) % ((P - 1) * (Q - 1)) = 1) :
    (65537 * D) % 2 = 1 ∧ ∀ m : Int, m ^ (65537 * D) ≡ m [ZMOD ((P : Int) * (Q : Int))] := by
  constructor
  · have hPodd : P % 2 = 1 := by
      rcases Nat.Prime.eq_two_or_odd hp with h | h
      · omega
      · exact h
    have h1 : 2 ∣ P - 1 := Nat.dvd_of_mod_eq_zero (by omega)
    have h2 : 2 ∣ (P - 1) * (Q - 1) := Dvd.dvd.mul_right h1 _
    have h3 := Nat.mod_mod_of_dvd (65537 * D) h2
    rw [hE] at h3
    exact h3.symm
  · exact fun m => rsa_core P Q hp hq hPQ (65537 * D) hE m

/-- C18: for every key `generateKeys` derives from distinct primes `p`, `q`
in `[100, 500]` and every string over the full signed 8-bit `char` type,
negative codes included, `encrypt` returns a cipher sequence on which
`decrypt` returns exactly the string, on the 64-bit machine. -/
theorem roundtrip_generated_key_all_chars (p q : Int) (hp : Nat.Prime p.toNat)
    (hq : Nat.Prime q.toNat) (hp_lo : 100 ≤ p) (hp_hi : p ≤ 500) (hq_lo : 100 ≤ q)
    (hq_hi : q ≤ 500) (hpq : p ≠ q) (fuel : Nat) (hfuel : 249001 < fuel) (s : List CChar) :
    ∃ key : Key, generateKeysFrom wrap64 fuel p q = some key ∧
      ∃ encrypted : List Int, encrypt wrap64 fuel key s = some encrypted ∧
        decrypt wrap64 fuel key encrypted = some s := by
  obtain ⟨d, hkey, _, hd0, hdlt, hmul⟩ :=
    generateKeysFrom_spec p q hp_lo hp_hi hq_lo hq_hi fuel hfuel
  refine ⟨_, hkey, ?_⟩
  obtain ⟨P, rfl⟩ := Int.eq_ofNat_of_zero_le (by omega : (0 : Int) ≤ p)
  obtain ⟨Q, rfl⟩ := Int.eq_ofNat_of_zero_le (by omega : (0 : Int) ≤ q)
  obtain ⟨D, rfl⟩ := Int.eq_ofNat_of_zero_le hd0
  simp only [Int.toNat_ofNat] at hp hq
  have hP : 100 ≤ P ∧ P ≤ 500 := by omega
  have hQ : 100 ≤ Q ∧ Q ≤ 500 := by omega
  have hPQ : P ≠ Q := fun h => hpq (by rw [h])
  have hn_lo : 100 * 100 ≤ P * Q := Nat.mul_le_mul hP.1 hQ.1
  have hn_hi : P * Q ≤ 500 * 500 := Nat.mul_le_mul hP.2 hQ.2
  have hphi_hi : (P - 1) * (Q - 1) ≤ 499 * 499 := Nat.mul_le_mul (by omega) (by omega)
  have hphi : ((P : Int) - 1) * ((Q : Int) - 1) = (((P - 1) * (Q - 1) : Nat) : Int) := by
    push_cast [Nat.cast_sub (by omega : 1 ≤ P), Nat.cast_sub (by omega : 1 ≤ Q)]
    ring
  have hn : (P : Int) * (Q : Int) = ((P * Q : Nat) : Int) := by push_cast; ring
  have hn128 : (128 : Int) < (P : Int) * (Q : Int) := by rw [hn]; omega
  have hnfit : (P : Int) * (Q : Int) ≤ 3037000500 := by rw [hn]; omega
  rw [hphi] at hdlt hmul
  have hD : D < (P - 1) * (Q - 1) := by exact_mod_cast hdlt
  have hD18 : D < 2 ^ 18 := lt_of_lt_of_le hD (le_trans hphi_hi (by norm_num))
  have hE : (65537 * D) % ((P - 1) * (Q - 1)) = 1 := by
    have : ((65537 * D % ((P - 1) * (Q - 1)) : Nat) : Int) = ((1 : Nat) : Int) := by
      push_cast
      push_cast at hmul
      exact hmul
    exact_mod_cast this
  obtain ⟨hodd, hcore⟩ := generated_exponent_facts P Q D hp hq hP.1 hPQ hE
  exact roundtrip_signed_chars ((P : Int) * (Q : Int)) 65537 D 18 hn128 hnfit (by norm_num)
    hD18 hodd hcore fuel (lt_trans (by norm_num) hfuel) s

theorem roundtrip_generated_key_all_chars_witness :
    Nat.Prime (101 : Int).toNat ∧ Nat.Prime (113 : Int).toNat ∧
      (100 : Int) ≤ 101 ∧ (101 : Int) ≤ 500 ∧ (100 : Int) ≤ 113 ∧ (113 : Int) ≤ 500 ∧
      (101 : Int) ≠ 113 ∧ 249001 < 249002 ∧
      ∃ key : Key, generateKeysFrom wrap64 249002 101 113 = some key ∧
        ∃ encrypted : List Int,
          encrypt wrap64 249002 key [toCChar (-61), toCChar (-87), toCChar 72]
            = some encrypted ∧
          decrypt wrap64 249002 key encrypted
            = some [toCChar (-61), toCChar (-87), toCChar 72] :=
  ⟨prime_toNat_101, prime_toNat_113, by decide, by decide, by decide, by decide, by decide,
    by decide,
    roundtrip_generated_key_all_chars 101 113 prime_toNat_101 prime_toNat_113 (by decide)
      (by decide) (by decide) (by decide) (by decide) 249002 (by decide)
      [toCChar (-61), toCChar (-87), toCChar 72]⟩

/-! ## C19 and C16: the exponent search of `generateKeys` -/

/-- For `p`, `q` in `[100, 500]` the first test `gcd(65537, phi) != 1` of the
exponent search already fails: one evaluation of the loop test is enough. -/
theorem findExponent_first_test (p q : Int) (hp_lo : 100 ≤ p) (hp_hi : p ≤ 500)
    (hq_lo : 100 ≤ q) (hq_hi : q ≤ 500) (fuel : Nat) (hfuel : 249001 < fuel) :
    wrap64 (wrap64 (p - 1) * wrap64 (q - 1)) = (p - 1) * (q - 1) ∧
      findExponent wrap64 fuel 1 65537 ((p - 1) * (q - 1)) = some 65537 := by
  obtain ⟨a, ha⟩ : ∃ a : Nat, p - 1 = (a : Int) := ⟨(p - 1).toNat, by omega⟩
  obtain ⟨b, hb⟩ : ∃ b : Nat, q - 1 = (b : Int) := ⟨(q - 1).toNat, by omega⟩
  have ha1 : 99 ≤ a ∧ a ≤ 499 := by omega
  have hb1 : 99 ≤ b ∧ b ≤ 499 := by omega
  have hphi_lo : 99 * 99 ≤ a * b := Nat.mul_le_mul ha1.1 hb1.1
  have hphi_hi : a * b ≤ 499 * 499 := Nat.mul_le_mul ha1.2 hb1.2
  have hphi : (p - 1) * (q - 1) = ((a * b : Nat) : Int) := by
    rw [ha, hb]; push_cast; ring
  have hgcdI : Int.gcd 65537 ((p - 1) * (q - 1)) = 1 := by
    rw [hphi]
    exact coprime_65537_totient a b (by omega) (by omega) (by omega) (by omega)
  have hWp : wrap64 (p - 1) = p - 1 := wrap64_of_inRange _ (by omega) (by omega)
  have hWq : wrap64 (q - 1) = q - 1 := wrap64_of_inRange _ (by omega) (by omega)
  constructor
  · rw [hWp, hWq, hphi]
    exact wrap64_of_inRange _ (by omega) (by omega)
  · unfold findExponent
    rw [gcd_loop_nonneg fuel 65537 ((p - 1) * (q - 1)) (by norm_num) (by rw [hphi]; omega)
      (by rw [hphi]; simp; omega), hgcdI]
    simp

/-- C19: for distinct primes `p`, `q` in `[100, 500]` the exponent search of
`generateKeys` exits at its first test, without executing `e += 2` once (a
loop budget of a single test suffices), so the search terminates and the
public exponent of the key is exactly `65537`. -/
theorem exponent_search_exits_immediately (p q : Int) (_hp : Nat.Prime p.toNat)
    (_hq : Nat.Prime q.toNat) (hp_lo : 100 ≤ p) (hp_hi : p ≤ 500) (hq_lo : 100 ≤ q)
    (hq_hi : q ≤ 500) (_hpq : p ≠ q) (fuel : Nat) (hfuel : 249001 < fuel) :
    findExponent wrap64 fuel 1 65537 (wrap64 (wrap64 (p - 1) * wrap64 (q - 1))) = some 65537 ∧
      ∃ key : Key, generateKeysFrom wrap64 fuel p q = some key ∧ key.e = 65537 := by
  obtain ⟨hphi, hloop⟩ := findExponent_first_test p q hp_lo hp_hi hq_lo hq_hi fuel hfuel
  obtain ⟨d, hkey, _⟩ := generateKeysFrom_spec p q hp_lo hp_hi hq_lo hq_hi fuel hfuel
  exact ⟨by rw [hphi]; exact hloop, _, hkey, rfl⟩

theorem exponent_search_exits_immediately_witness :
    Nat.Prime (101 : Int).toNat ∧ Nat.Prime (113 : Int).toNat ∧
      (100 : Int) ≤ 101 ∧ (101 : Int) ≤ 500 ∧ (100 : Int) ≤ 113 ∧ (113 : Int) ≤ 500 ∧
      (101 : Int) ≠ 113 ∧ 249001 < 249002 ∧
      findExponent wrap64 249002 1 65537 (wrap64 (wrap64 (101 - 1) * wrap64 (113 - 1)))
        = some 65537 ∧
      ∃ key : Key, generateKeysFrom wrap64 249002 101 113 = some key ∧ key.e = 65537 :=
  ⟨prime_toNat_101, prime_toNat_113, by decide, by decide, by decide, by decide, by decide,
    by decide,
    exponent_search_exits_immediately 101 113 prime_toNat_101 prime_toNat_113 (by decide)
      (by decide) (by decide) (by decide) (by decide) 249002 (by decide)⟩

/-- C16, at the failing input `p = 101`, `q = 113`: the totient is `11200`,
the key derived (also by the whole of `generateKeys` on the draws `101`,
`113`) has `e = 65537` with `gcd(e, 11200) = 1`, and `e < phi(n)` does not
hold although the comment of step 4 asks for `1 < e < phi(n)`. -/
theorem public_exponent_exceeds_totient_101_113 :
    wrap64 (wrap64 (101 - 1) * wrap64 (113 - 1)) = 11200 ∧
      generateKeysFrom wrap64 18 101 113 = some ⟨11413, 65537, 7873⟩ ∧
      generateKeys wrap64 18 [101, 113] = some ⟨11413, 65537, 7873⟩ ∧
      (∀ fuel key, generateKeysFrom wrap64 fuel 101 113 = some key → key.e = 65537) ∧
      Int.gcd 65537 11200 = 1 ∧ ¬ ((65537 : Int) < 11200) := by
  refine ⟨by decide, by decide, by decide, ?_, by decide, by decide⟩
  intro fuel key h
  have h1 := generateKeysFrom_mono wrap64 fuel (max fuel 18) (le_max_left _ _) 101 113 key h
  have h2 := generateKeysFrom_mono wrap64 18 (max fuel 18) (le_max_right _ _) 101 113
    ⟨11413, 65537, 7873⟩ (by decide)
  rw [h1] at h2
  cases h2
  rfl

/-! ## Every run of `generateKeys` derives its key from two distinct primes -/

/-- What `generatePrime(100, 500)` returns is a prime in `[101, 499]`. -/
theorem generatePrime_100_500 (fuel : Nat) (draws : List Int) (p : Int) (rest : List Int)
    (h : generatePrime wrap64 fuel 100 500 draws = some (p, rest)) :
    101 ≤ p ∧ p ≤ 499 ∧ Nat.Prime p.toNat := by
  obtain ⟨pre, c, _, _, hc, hp, hacc⟩ := (generatePrime_iff wrap64 fuel 100 500 draws p rest).mp h
  rw [candidate_eq c (by omega) (by omega)] at hp
  have hb := candidate_bounds c
  rw [← hp] at hb
  have hne : p ≠ 501 := by
    intro h501
    rw [h501] at hacc
    exact isPrime_501 fuel hacc
  exact ⟨by omega, by omega, isPrime_sound fuel p (by omega) hacc⟩

theorem distinctPrime_spec (fuel : Nat) (k : Nat) :
    ∀ (p q0 : Int) (draws : List Int) (q : Int) (rest : List Int),
      (101 ≤ q0 ∧ q0 ≤ 499 ∧ Nat.Prime q0.toNat) →
      distinctPrime wrap64 fuel k p q0 draws = some (q, rest) →
      q ≠ p ∧ 101 ≤ q ∧ q ≤ 499 ∧ Nat.Prime q.toNat := by
  induction k with
  | zero => intro _ _ _ _ _ _ h; simp [distinctPrime] at h
  | succ k ih =>
    intro p q0 draws q rest hq0 h
    unfold distinctPrime at h
    by_cases hpq : p = q0
    · rw [if_pos hpq] at h
      cases hg : generatePrime wrap64 fuel 100 500 draws with
      | none => simp [hg] at h
      | some r =>
        obtain ⟨q1, rest1⟩ := r
        rw [hg] at h
        dsimp only at h
        exact ih p q1 rest1 q rest (generatePrime_100_500 fuel draws q1 rest1 hg) h
    · rw [if_neg hpq] at h
      simp only [Option.some.injEq, Prod.mk.injEq] at h
      obtain ⟨rfl, _⟩ := h
      exact ⟨fun h1 => hpq h1.symm, hq0⟩

/-- Every key `generateKeys` returns is the key `generateKeysFrom` derives
from two distinct primes of `[101, 499]`, the values its calls of
`generatePrime(100, 500)` returned. -/
theorem generateKeys_from_distinct_primes (fuel : Nat) (draws : List Int) (key : Key)
    (h : generateKeys wrap64 fuel draws = some key) :
    ∃ p q : Int, Nat.Prime p.toNat ∧ Nat.Prime q.toNat ∧ 101 ≤ p ∧ p ≤ 499 ∧ 101 ≤ q ∧
      q ≤ 499 ∧ p ≠ q ∧ generateKeysFrom wrap64 fuel p q = some key := by
  unfold generateKeys at h
  cases hg1 : generatePrime wrap64 fuel 100 500 draws with
  | none => simp [hg1] at h
  | some r1 =>
    obtain ⟨p, rest⟩ := r1
    rw [hg1] at h
    dsimp only at h
    cases hg2 : generatePrime wrap64 fuel 100 500 rest with
    | none => simp [hg2] at h
    | some r2 =>
      obtain ⟨q0, rest1⟩ := r2
      rw [hg2] at h
      dsimp only at h
      cases hg3 : distinctPrime wrap64 fuel fuel p q0 rest1 with
      | none => simp [hg3] at h
      | some r3 =>
        obtain ⟨q, rest2⟩ := r3
        rw [hg3] at h
        dsimp only at h
        have hp := generatePrime_100_500 fuel draws p rest hg1
        have hq0 := generatePrime_100_500 fuel rest q0 rest1 hg2
        have hq := distinctPrime_spec fuel fuel p q0 rest1 q rest2 hq0 hg3
        exact ⟨p, q, hp.2.2, hq.2.2.2, hp.1, hp.2.1, hq.2.1, hq.2.2.1,
          fun hpq => hq.1 hpq.symm, h⟩

end RSACrypto
